import Mathlib

/-!
The window module of the editor (win.c).

A shallow embedding of win.c: the window registry (win_new, win_delete), the
frame layout (win_move, win_resize_frame, win_tag_toggle), the line layout
engine (runewidth, pushoff, lineinfo, update) and the scroll controller
(win_scroll, win_show_cursor).

Conventions of the embedding.

* C unsigned offsets are natural numbers; the no-limit sentinel -1u is
  4294967295.  Inside lineinfo an offset is incremented only while it is
  below the limit, so the increment never wraps.
* C int values are integers; division and remainder truncate toward zero
  (Int.tdiv, Int.tmod).  The sums, the product and the quotient computed by
  win_resize_frame are checked against the 32-bit range.  The pen of
  lineinfo is not range checked: with rune widths that are not negative it
  never passes the window width by more than the width of one rune.
* A failed assert, a null dereference, a read of the line table at a
  negative index, a division by zero in win_move or win_resize_frame, or a
  signed overflow in win_resize_frame make an operation return none.
* The loops carry a fuel argument; the fuel handed in by the callers is
  shown to be enough.
* draw leaves the module state alone: its driver calls are left out, its
  loop is kept for the asserts it can fail (the row change test and the
  fragment length test of pushfrag), its null dereference and its read of
  l[nl].
-/

namespace Ed

/-! ## Constants and data -/

/-- Runes are Unicode code points; 9 is the tab and 10 the newline. -/
abbrev Rune := Nat

/-- The ring capacity, enum RingSize of win.c. -/
def RingSize : Nat := 2

/-- Horizontal margin, enum HMargin of x11.c. -/
def HMargin : Int := 16

/-- Vertical margin, enum VMargin of x11.c. -/
def VMargin : Int := 2

/-- The sentinel -1u of a 32-bit unsigned: no limit. -/
def nolimit : Nat := 4294967295

/-- Modelled from the spec: the text buffer, whose implementation (buf.c) is
not among the sources.  The contract consumed by win.c is a total read
get(buffer, offset) and the end-of-buffer offset limbo. -/
structure Buf where
  get : Nat → Rune
  limbo : Nat

/-- Modelled from the spec: buf_get, the read access get(buffer, offset). -/
def buf_get (b : Buf) (off : Nat) : Rune := b.get off

/-- Modelled from the spec: buf_bol, the line-start query
lineStartBefore(buffer, offset): the greatest offset p at most off which is
0 or comes right after a newline. -/
def buf_bol (b : Buf) : Nat → Nat
  | 0 => 0
  | off + 1 => if buf_get b off = 10 then off + 1 else buf_bol b off

/-- A buffer holding the given text; reads past the end give newlines. -/
def mkbuf (txt : List Rune) : Buf :=
  { get := fun i => txt.getD i 10, limbo := txt.length }

/-- GRect of gui.h: a screen rectangle. -/
structure GRect where
  x : Int
  y : Int
  w : Int
  h : Int
deriving DecidableEq

/-- The window structure W: line-start table l, number of lines nl, cursor
cu, buffer eb (none is the null pointer), rectangle gr and horizontal
rigidity hrig.  The array l is a map on indices; the indices below the
array size of win.h are the array. -/
structure W where
  l : Nat → Nat
  nl : Int
  cu : Nat
  eb : Option Buf
  gr : GRect
  hrig : Int

/-- What win.c keeps from the driver after win_init: the text measure
g->textwidth on one rune, font.height and the tab width tabw. -/
structure Gui where
  textwidth : Rune → Int
  font_height : Int
  tabw : Int

/-- The struct lineinfo: a ring of line-start offsets. -/
structure LineInfo where
  beg : Nat
  len : Nat
  sl : Nat → Nat

/-- Enum CursorLoc of win.h. -/
inductive CursorLoc where
  | CTop
  | CMid
  | CBot
deriving DecidableEq

/-! ## The line layout engine -/

/-- The function runewidth: width of rune r put at pen position x.  The tab
width tabw is TabWidth times the width of a space (win_init); a remainder by
tabw = 0 is not flagged here. -/
def runewidth (g : Gui) (r : Rune) (x : Int) : Int :=
  if r = 9 then g.tabw - Int.tmod x g.tabw
  else if r = 10 then 0
  else g.textwidth r

/-- The function pushoff: the returned flag is the C return value.  Its
assert li->len <= RingSize is not a branch here: the length only grows while
it is below RingSize (pushoff_len_le). -/
def pushoff (li : LineInfo) (off : Nat) (overwrite : Bool) : Bool × LineInfo :=
  if li.len = RingSize then
    if overwrite = false then (false, li)
    else (true, { li with sl := Function.update li.sl li.beg off,
                          beg := (li.beg + 1) % RingSize })
  else
    (true, { li with sl := Function.update li.sl ((li.beg + li.len) % RingSize) off,
                     len := li.len + 1 })

/-- The while loop of lineinfo on the buffer b of a window of width grw;
the state is the offset off, the pen x and the ring li. -/
def lineinfo_loop (g : Gui) (b : Buf) (grw : Int) (lim : Nat) :
    Nat → Nat → Int → LineInfo → Option LineInfo
  | 0, _, _, _ => none
  | fuel + 1, off, x, li =>
    let r := buf_get b off
    let rw := runewidth g r x
    if HMargin + x + rw > grw ∧ x ≠ 0 then
      let p := pushoff li off (lim != nolimit)
      if p.1 = false then some p.2
      else lineinfo_loop g b grw lim fuel off 0 p.2
    else if off ≥ lim then some li
    else if r = 10 then
      let p := pushoff li (off + 1) (lim != nolimit)
      if p.1 = false then some p.2
      else lineinfo_loop g b grw lim fuel (off + 1) 0 p.2
    else lineinfo_loop g b grw lim fuel (off + 1) (x + rw) li

/-- The function lineinfo.  The ring is a fresh local of the caller, here
zero filled; slots never written are never read by the callers. -/
def lineinfo (g : Gui) (w : W) (off lim : Nat) : Option LineInfo :=
  match w.eb with
  | none => none
  | some b =>
    let li : LineInfo := { beg := 0, len := 0, sl := fun _ => 0 }
    lineinfo_loop g b w.gr.w lim (2 * (lim - off) + 2) off 0
      (pushoff li off (lim != nolimit)).2

/-- The inner for loop of update: copy the ring entries top, top+1, ... to
the table entries l, l+1, ...; k is the number of entries left. -/
def update_copy (li : LineInfo) : Nat → Nat → Nat → (Nat → Nat) → Nat × (Nat → Nat)
  | 0, _, l, tbl => (l, tbl)
  | k + 1, top, l, tbl =>
    update_copy li k (top + 1) (l + 1)
      (Function.update tbl l (li.sl ((li.beg + top) % RingSize)))

/-- The outer for loop of update, from table index l on. -/
def update_loop (g : Gui) (w : W) : Nat → Nat → (Nat → Nat) → Option (Nat → Nat)
  | 0, l, tbl => if (l : Int) ≤ w.nl then none else some tbl
  | fuel + 1, l, tbl =>
    if (l : Int) ≤ w.nl then
      match lineinfo g w (tbl (l - 1)) nolimit with
      | none => none
      | some li =>
        if 1 < li.len then
          let p := update_copy li (li.len - 1) 1 l tbl
          update_loop g w fuel p.1 p.2
        else none
    else some tbl

/-- The function update: rebuild the line-start table from l[0]. -/
def update (g : Gui) (w : W) : Option W :=
  (update_loop g w w.nl.toNat 1 w.l).map fun tbl => { w with l := tbl }

/-! ## The scroll controller -/

/-- Inner for loop of the backward branch of win_scroll: take ring entries
from index k - 1 downward while n is negative. -/
def scroll_back_take (w : W) (li : LineInfo) : Nat → Nat → Int → Option (Nat × Int)
  | 0, start, n => some (start, n)
  | k + 1, start, n =>
    if n < 0 then
      let s := li.sl ((li.beg + k) % RingSize)
      if s < w.l 0 then scroll_back_take w li k s (n + 1) else none
    else some (start, n)

/-- The do-while loop of the backward branch of win_scroll. -/
def scroll_back (g : Gui) (w : W) (b : Buf) : Nat → Nat → Int → Option Nat
  | 0, _, _ => none
  | fuel + 1, start, n =>
    if start = 0 then some start
    else
      match lineinfo g w (buf_bol b (start - 1)) (start - 1) with
      | none => none
      | some li =>
        if li.len = 0 then none
        else
          match scroll_back_take w li li.len start n with
          | none => none
          | some (s, n1) => if n1 < 0 then scroll_back g w b fuel s n1 else some s

/-- Inner for loop of the forward branch of win_scroll: take ring entries
from index top upward while n is positive; k entries are left. -/
def scroll_fwd_take (w : W) (b : Buf) (li : LineInfo) :
    Nat → Nat → Nat → Int → Option (Nat × Int)
  | 0, _, start, n => some (start, n)
  | k + 1, top, start, n =>
    if n > 0 then
      let s := li.sl ((li.beg + top) % RingSize)
      if s > w.l 0 ∨ w.l 0 ≥ b.limbo then scroll_fwd_take w b li k (top + 1) s (n - 1)
      else none
    else some (start, n)

/-- The do-while loop of the forward branch of win_scroll. -/
def scroll_fwd (g : Gui) (w : W) (b : Buf) : Nat → Nat → Int → Option Nat
  | 0, _, _ => none
  | fuel + 1, start, n =>
    match lineinfo g w start nolimit with
    | none => none
    | some li =>
      if 1 < li.len then
        match scroll_fwd_take w b li (li.len - 1) 1 start n with
        | none => none
        | some (s, n1) => if n1 > 0 then scroll_fwd g w b fuel s n1 else some s
      else none

/-- The function win_scroll: scroll the window by n lines. -/
def win_scroll (g : Gui) (w : W) (n : Int) : Option W :=
  if n = 0 then some w
  else
    match w.eb with
    | none => none
    | some b =>
      let r := if n < 0 then scroll_back g w b n.natAbs (w.l 0) n
               else scroll_fwd g w b n.natAbs (w.l 0) n
      match r with
      | none => none
      | some start => update g { w with l := Function.update w.l 0 start }

/-- The function win_show_cursor. -/
def win_show_cursor (g : Gui) (w : W) (loc : CursorLoc) : Option W :=
  match w.eb with
  | none => none
  | some b =>
    match lineinfo g w (buf_bol b w.cu) w.cu with
    | none => none
    | some li =>
      if 0 < li.len then
        let w1 : W :=
          { w with l := Function.update w.l 0 (li.sl ((li.beg + li.len - 1) % RingSize)) }
        match loc with
        | CursorLoc.CBot => win_scroll g w1 (-w1.nl + 1)
        | CursorLoc.CMid => win_scroll g w1 (Int.tdiv (-w1.nl) 2)
        | CursorLoc.CTop => update g w1
      else none

/-! ## The window registry and the frame layout -/

/-- Constants of win.h, which is not among the sources: the number of window
slots, the size of the line-start table and the capacity of a text fragment
of draw. -/
structure Limits where
  MaxWins : Nat
  MaxHeight : Int
  MaxWidth : Nat

/-- A pointer to a window: null, the address of wins[i], or the address of
tag.win. -/
inductive WPtr where
  | null
  | slot (i : Nat)
  | tagwin
deriving DecidableEq

/-- The static state of win.c: the slots wins, the tag (its window, its
owner, its visibility) and the frame size. -/
structure State where
  wins : Nat → W
  tag_win : W
  tag_owner : WPtr
  tag_visible : Bool
  fwidth : Int
  fheight : Int

/-- The all-zero window left by memset and by static initialisation. -/
def W.zero : W :=
  { l := fun _ => 0, nl := 0, cu := 0, eb := none,
    gr := { x := 0, y := 0, w := 0, h := 0 }, hrig := 0 }

/-- A value of type int, or none when it leaves the 32-bit range. -/
def ck (v : Int) : Option Int :=
  if -2147483648 ≤ v ∧ v ≤ 2147483647 then some v else none

/-- Dereference a window pointer. -/
def getw (k : Limits) (s : State) : WPtr → Option W
  | WPtr.null => none
  | WPtr.slot i => if i < k.MaxWins then some (s.wins i) else none
  | WPtr.tagwin => some s.tag_win

/-- Store a window through a pointer. -/
def setw (s : State) : WPtr → W → State
  | WPtr.null, _ => s
  | WPtr.slot i, v => { s with wins := Function.update s.wins i v }
  | WPtr.tagwin, v => { s with tag_win := v }

/-- The search loop of win_new: left slots remain from index i on; none is
the exit w - wins >= MaxWins. -/
def win_new_scan (s : State) : Nat → Nat → Option Nat
  | 0, _ => none
  | left + 1, i => if (s.wins i).eb.isNone then some i else win_new_scan s left (i + 1)

/-- The function win_new; the buffer handed in is not null (assert(eb)). -/
def win_new (k : Limits) (s : State) (eb : Buf) : WPtr × State :=
  match win_new_scan s k.MaxWins 0 with
  | none => (WPtr.null, s)
  | some i =>
    let w : W := { s.wins i with eb := some eb,
                                 gr := { x := 0, y := 0, w := s.fwidth, h := s.fheight },
                                 hrig := 500 }
    (WPtr.slot i, { s with wins := Function.update s.wins i w })

/-- The function win_delete; the two asserts ask for a pointer into wins. -/
def win_delete (k : Limits) (s : State) : WPtr → Option State
  | WPtr.slot i =>
    if i < k.MaxWins then some { s with wins := Function.update s.wins i W.zero } else none
  | _ => none

/-- The for loop of draw on the buffer b of the window w.  The state is the
offset c, the index nx of the pointer next into the line table, the pen x
and the length n of the pending fragment (flushfrag sets it to 0, pushfrag
asserts n < MaxWidth and adds 1).  The driver calls and the cursor
rectangle are left out. -/
def draw_loop (k : Limits) (g : Gui) (w : W) (b : Buf) :
    Nat → Nat → Nat → Int → Nat → Option Unit
  | 0, c, _, _, _ => if c < w.l w.nl.toNat then none else some ()
  | fuel + 1, c, nx, x, n =>
    if c < w.l w.nl.toNat then
      if c ≥ w.l nx ∧ c ≠ w.l nx then none
      else
        let x0 : Int := if c ≥ w.l nx then HMargin else x
        let nx0 : Nat := if c ≥ w.l nx then nx + 1 else nx
        let n0 : Nat := if c ≥ w.l nx then 0 else n
        let r := buf_get b c
        let rw := runewidth g r (x0 - HMargin)
        if r = 9 then draw_loop k g w b fuel (c + 1) nx0 (x0 + rw) 0
        else if r ≠ 10 then
          if n0 < k.MaxWidth then draw_loop k g w b fuel (c + 1) nx0 (x0 + rw) (n0 + 1)
          else none
        else draw_loop k g w b fuel (c + 1) nx0 (x0 + rw) n0
    else some ()

/-- The function draw, for what can make it fail: the read of l[nl] needs an
index that is not negative, the loop from l[0] to l[nl] reads the buffer
when it runs at all, and it asserts that rows change exactly at the table
entries and that a fragment stays below MaxWidth runes.  The background
colour only goes to the driver. -/
def draw (k : Limits) (g : Gui) (w : W) : Option Unit :=
  if w.nl < 0 then none
  else
    match w.eb with
    | none => if w.l 0 < w.l w.nl.toNat then none else some ()
    | some b => draw_loop k g w b (w.l w.nl.toNat - w.l 0) (w.l 0) 1 HMargin 0

/-- The body of win_move up to and including update and draw. -/
def win_move_body (k : Limits) (g : Gui) (s : State) (pw : WPtr) (x w h : Int) :
    Option State :=
  match getw k s pw with
  | none => none
  | some win =>
    let r : Option W :=
      if w ≠ 0 ∧ h ≠ 0 then
        if g.font_height = 0 then none
        else
          let nl := Int.tdiv (h - VMargin) g.font_height
          if nl < k.MaxHeight then
            some { win with gr := { x := x, y := 0, w := w, h := h }, nl := nl }
          else none
      else some win
    match r with
    | none => none
    | some win1 =>
      match update g win1 with
      | none => none
      | some win2 =>
        match draw k g win2 with
        | none => none
        | some _ => some (setw s pw win2)

/-- The function win_move.  The recursive call on the tag window is unfolded
once: inside it the test tag.owner == pw fails, unless the tag window owns
itself, in which case the recursion of the C code does not end. -/
def win_move (k : Limits) (g : Gui) (s : State) (pw : WPtr) (x w h : Int) :
    Option State :=
  match win_move_body k g s pw x w h with
  | none => none
  | some s1 =>
    if s1.tag_visible = true ∧ s1.tag_owner = pw then
      if pw = WPtr.tagwin then none
      else win_move_body k g s1 WPtr.tagwin 0 0 0
    else some s1

/-- The function win_tag_toggle. -/
def win_tag_toggle (k : Limits) (g : Gui) (s : State) (w : WPtr) : Option State :=
  let r : Option (State × Bool) :=
    if s.tag_visible = true then
      match win_move k g { s with tag_visible := false } s.tag_owner 0 0 0 with
      | none => none
      | some s1 => some (s1, decide (w = s1.tag_owner))
    else some (s, false)
  match r with
  | none => none
  | some (s1, true) => some s1
  | some (s1, false) =>
    match getw k s1 w with
    | none => none
    | some win =>
      win_move k g { s1 with tag_visible := true, tag_owner := w } WPtr.tagwin
        win.gr.x win.gr.w (Int.tdiv win.gr.h 3)

/-- The first loop of win_resize_frame: the sum rig of the weights of the
slots i, i+1, ... (left of them remain). -/
def rig_loop (s : State) : Nat → Nat → Int → Option Int
  | 0, _, rig => some rig
  | left + 1, i, rig =>
    match ck (rig + (s.wins i).hrig) with
    | none => none
    | some r => rig_loop s left (i + 1) r

/-- The second loop of win_resize_frame. -/
def resize_loop (k : Limits) (g : Gui) (rig : Int) : Nat → Nat → Int → State → Option State
  | 0, _, _, s => some s
  | left + 1, i, x, s =>
    if (s.wins i).eb.isSome then
      if rig = 0 then none
      else
        match ck (s.fwidth * (s.wins i).hrig) with
        | none => none
        | some prod =>
          match ck (Int.tdiv prod rig) with
          | none => none
          | some ww =>
            match win_move k g s (WPtr.slot i) x ww s.fheight with
            | none => none
            | some s1 =>
              let r : Option State :=
                if s1.tag_visible = true ∧ s1.tag_owner = WPtr.slot i then
                  win_tag_toggle k g { s1 with tag_visible := false } (WPtr.slot i)
                else some s1
              match r with
              | none => none
              | some s2 =>
                match ck (x + ww) with
                | none => none
                | some x1 => resize_loop k g rig left (i + 1) x1 s2
    else resize_loop k g rig left (i + 1) x s

/-- The function win_resize_frame. -/
def win_resize_frame (k : Limits) (g : Gui) (s : State) (w h : Int) : Option State :=
  let s0 : State := if w ≠ 0 ∧ h ≠ 0 then { s with fwidth := w, fheight := h } else s
  match rig_loop s0 k.MaxWins 0 0 with
  | none => none
  | some rig => resize_loop k g rig k.MaxWins 0 0 s0

/-! ## Concrete scenario of the specification -/

/-- The text abc, newline, 200 times x, newline, end, newline. -/
def scenText : List Rune :=
  [97, 98, 99, 10] ++ List.replicate 200 120 ++ [10, 101, 110, 100, 10]

/-- A driver with unit-width runes, font height 10 and tab stop 8. -/
def scenGui : Gui := { textwidth := fun _ => 1, font_height := 10, tabw := 8 }

/-- A 3-line window of 80 columns (width HMargin + 80) on the scenario text
with top offset l0. -/
def scenWin (l0 : Nat) : W :=
  { l := fun i => if i = 0 then l0 else 0, nl := 3, cu := 0,
    eb := some (mkbuf scenText), gr := { x := 0, y := 0, w := 96, h := 32 }, hrig := 500 }

/-! ## Wrap boundaries, stated without the ring -/

/-- Pen position reached after the k runes at s, s+1, ..., s+k-1 were put on
one display line that starts at s with pen 0. -/
def pen (g : Gui) (b : Buf) (s : Nat) : Nat → Int
  | 0 => 0
  | k + 1 => pen g b s k + runewidth g (buf_get b (s + k)) (pen g b s k)

/-- The rune at offset c does not fit on a line of a window of width grw
whose pen is at x, and the pen is not 0. -/
def overflows (g : Gui) (b : Buf) (grw : Int) (c : Nat) (x : Int) : Prop :=
  HMargin + x + runewidth g (buf_get b c) x > grw ∧ x ≠ 0

/-- The offset c ends the display line that starts at s: it comes right
after a newline, or its rune overflows the window width. -/
def brk (g : Gui) (b : Buf) (grw : Int) (s c : Nat) : Prop :=
  buf_get b (c - 1) = 10 ∨ overflows g b grw c (pen g b s (c - s))

/-- The offset e is the first wrap boundary after s of the layout that
starts at s with pen 0. -/
def IsFirstBoundary (g : Gui) (b : Buf) (grw : Int) (s e : Nat) : Prop :=
  s < e ∧ brk g b grw s e ∧ ∀ c, c < e → s < c → ¬ brk g b grw s c

/-- The offset e is reached from s by n successive first wrap boundaries:
e starts the n-th display line after the one starting at s. -/
inductive Steps (g : Gui) (b : Buf) (grw : Int) : Nat → Nat → Nat → Prop where
  | zero (s : Nat) : Steps g b grw 0 s s
  | succ {n s m e : Nat} : Steps g b grw n s m → IsFirstBoundary g b grw m e →
      Steps g b grw (n + 1) s e

/-- The offset t starts a display line of the layout of its buffer line:
it is a wrap boundary of the layout that starts at buf_bol t. -/
def LineStart (g : Gui) (b : Buf) (grw : Int) (t : Nat) : Prop :=
  ∃ n, Steps g b grw n (buf_bol b t) t

instance (g : Gui) (b : Buf) (grw : Int) (c : Nat) (x : Int) :
    Decidable (overflows g b grw c x) := by
  unfold overflows; infer_instance

instance (g : Gui) (b : Buf) (grw : Int) (s c : Nat) : Decidable (brk g b grw s c) := by
  unfold brk; infer_instance

instance (g : Gui) (b : Buf) (grw : Int) (s e : Nat) :
    Decidable (IsFirstBoundary g b grw s e) := by
  unfold IsFirstBoundary; infer_instance

/-- The loop of lineinfo started in the state (off, x, li) ends with the
ring r. -/
def Eval (g : Gui) (b : Buf) (grw : Int) (lim : Nat) (off : Nat) (x : Int)
    (li r : LineInfo) : Prop :=
  ∃ fuel, lineinfo_loop g b grw lim fuel off x li = some r

/-- The ring after the first push of lineinfo. -/
def ring1 (s : Nat) : LineInfo :=
  { beg := 0, len := 1, sl := Function.update (fun _ => 0) 0 s }

/-- The ring holds the single offset a. -/
def Ring1 (li : LineInfo) (a : Nat) : Prop :=
  li.beg = 0 ∧ li.len = 1 ∧ li.sl 0 = a

/-- The ring is full: its older offset is a and its newest offset is c. -/
def Ring2 (li : LineInfo) (a c : Nat) : Prop :=
  li.beg < 2 ∧ li.len = 2 ∧ li.sl li.beg = a ∧ li.sl ((li.beg + 1) % 2) = c

/-- The scenario window with one visible line and an up-to-date table from
the top offset 0, and the cursor at offset 100 inside the long line. -/
def scenWinOne : W :=
  { l := fun i => if i = 1 then 4 else 0, nl := 1, cu := 100,
    eb := some (mkbuf scenText), gr := { x := 0, y := 0, w := 96, h := 12 }, hrig := 500 }

/-- Table sizes used in the examples. -/
def demoLimits : Limits := { MaxWins := 3, MaxHeight := 500, MaxWidth := 512 }

/-- The module state after win_init: all slots zero, the tag window with a
fresh empty buffer, hidden, and the dummy frame size 10 by 10. -/
def initState : State :=
  { wins := fun _ => W.zero,
    tag_win := { W.zero with eb := some (mkbuf []) },
    tag_owner := WPtr.null, tag_visible := false, fwidth := 10, fheight := 10 }

/-- The state after one call of win_new on the scenario text. -/
def oneWinState : State := (win_new demoLimits initState (mkbuf scenText)).2

/-- The state after two calls of win_new on the scenario text. -/
def twoWinState : State := (win_new demoLimits oneWinState (mkbuf scenText)).2

/-- The state after three calls of win_new: the registry is full. -/
def fullState : State := (win_new demoLimits twoWinState (mkbuf scenText)).2

/-- Sum of the weights of the slots below index i. -/
def rig_sum (s : State) : Nat → Int
  | 0 => 0
  | i + 1 => rig_sum s i + (s.wins i).hrig

/-- Sum of the weights of the occupied slots below index i. -/
def occ_rig (s : State) : Nat → Int
  | 0 => 0
  | i + 1 => occ_rig s i + (if (s.wins i).eb.isSome then (s.wins i).hrig else 0)

/-- Registry states reached from a state whose slots are all zero through
win_new, win_delete and win_resize_frame. -/
inductive RegReach (k : Limits) (g : Gui) : State → Prop where
  | init (s : State) : (∀ j, s.wins j = W.zero) → RegReach k g s
  | new (s : State) (eb : Buf) : RegReach k g s → RegReach k g (win_new k s eb).2
  | delete (s s1 : State) (p : WPtr) : RegReach k g s → win_delete k s p = some s1 →
      RegReach k g s1
  | resize (s s1 : State) (w h : Int) : RegReach k g s →
      win_resize_frame k g s w h = some s1 → RegReach k g s1

/-- States reached from a state with all slots zero and the tag hidden
through win_new, win_move, win_resize_frame, win_tag_toggle on an occupied
slot, and win_delete on a window that does not own a visible tag. -/
inductive TagReach (k : Limits) (g : Gui) : State → Prop where
  | init (s : State) : (∀ j, s.wins j = W.zero) → s.tag_visible = false → TagReach k g s
  | new (s : State) (eb : Buf) : TagReach k g s → TagReach k g (win_new k s eb).2
  | delete (s s1 : State) (p : WPtr) : TagReach k g s →
      ¬ (s.tag_visible = true ∧ s.tag_owner = p) → win_delete k s p = some s1 →
      TagReach k g s1
  | move (s s1 : State) (pw : WPtr) (x w h : Int) : TagReach k g s →
      win_move k g s pw x w h = some s1 → TagReach k g s1
  | resize (s s1 : State) (w h : Int) : TagReach k g s →
      win_resize_frame k g s w h = some s1 → TagReach k g s1
  | toggle (s s1 : State) (i : Nat) : TagReach k g s → i < k.MaxWins →
      (s.wins i).eb.isSome = true → win_tag_toggle k g s (WPtr.slot i) = some s1 →
      TagReach k g s1

/-- The owner of a visible tag is an occupied slot. -/
def TagInv (k : Limits) (s : State) : Prop :=
  s.tag_visible = true →
    ∃ i, s.tag_owner = WPtr.slot i ∧ i < k.MaxWins ∧ (s.wins i).eb.isSome = true

/-! # Theorems -/

/-! ## The loop of lineinfo -/

/-- The assert of pushoff holds along every run: pushoff keeps the length of
the ring at most RingSize. -/
theorem pushoff_len_le (li : LineInfo) (off : Nat) (ow : Bool) (h : li.len ≤ RingSize) :
    (pushoff li off ow).2.len ≤ RingSize := by
  unfold pushoff
  split_ifs with h1 h2
  · exact h
  · exact h
  · show li.len + 1 ≤ RingSize
    omega

theorem lineinfo_loop_succ (g : Gui) (b : Buf) (grw : Int) (lim : Nat) :
    ∀ (fuel off : Nat) (x : Int) (li r : LineInfo),
      lineinfo_loop g b grw lim fuel off x li = some r →
      lineinfo_loop g b grw lim (fuel + 1) off x li = some r := by
  intro fuel
  induction fuel with
  | zero => intro off x li r h; simp [lineinfo_loop] at h
  | succ n ih =>
    intro off x li r h
    rw [lineinfo_loop] at h
    rw [lineinfo_loop]
    simp only at h ⊢
    split_ifs at h ⊢ with h1 h2 h3 h4 h5
    · exact h
    · exact ih _ _ _ _ h
    · exact h
    · exact h
    · exact ih _ _ _ _ h
    · exact ih _ _ _ _ h

theorem lineinfo_loop_add (g : Gui) (b : Buf) (grw : Int) (lim : Nat)
    (fuel off : Nat) (x : Int) (li r : LineInfo) (k : Nat)
    (h : lineinfo_loop g b grw lim fuel off x li = some r) :
    lineinfo_loop g b grw lim (fuel + k) off x li = some r := by
  induction k with
  | zero => exact h
  | succ k ih => exact lineinfo_loop_succ g b grw lim _ _ _ _ _ ih

theorem lineinfo_loop_le (g : Gui) (b : Buf) (grw : Int) (lim : Nat)
    (f1 f2 off : Nat) (x : Int) (li r : LineInfo) (hle : f1 ≤ f2)
    (h : lineinfo_loop g b grw lim f1 off x li = some r) :
    lineinfo_loop g b grw lim f2 off x li = some r := by
  obtain ⟨k, rfl⟩ := Nat.exists_eq_add_of_le hle
  exact lineinfo_loop_add g b grw lim _ _ _ _ _ k h

/-- The loop is deterministic: its result does not depend on the fuel. -/
theorem Eval_det (g : Gui) (b : Buf) (grw : Int) (lim off : Nat) (x : Int)
    (li r1 r2 : LineInfo) (h1 : Eval g b grw lim off x li r1)
    (h2 : Eval g b grw lim off x li r2) : r1 = r2 := by
  obtain ⟨f1, e1⟩ := h1
  obtain ⟨f2, e2⟩ := h2
  have a1 := lineinfo_loop_le g b grw lim f1 (max f1 f2) off x li r1 (le_max_left _ _) e1
  have a2 := lineinfo_loop_le g b grw lim f2 (max f1 f2) off x li r2 (le_max_right _ _) e2
  rw [a1] at a2
  exact Option.some.inj a2

/-- The measure that decreases along the loop: twice the distance to the
limit, plus one when a forced wrap is still possible. -/
theorem lineinfo_loop_isSome (g : Gui) (b : Buf) (grw : Int) (lim : Nat) :
    ∀ (fuel off : Nat) (x : Int) (li : LineInfo),
      2 * (lim - off) + (if x = 0 then 0 else 1) < fuel →
      (lineinfo_loop g b grw lim fuel off x li).isSome = true := by
  intro fuel
  induction fuel with
  | zero => intro off x li h; omega
  | succ n ih =>
    intro off x li h
    rw [lineinfo_loop]
    simp only
    split_ifs with h1 h2 h3 h4 h5
    · rfl
    · apply ih
      have hx : x ≠ 0 := h1.2
      simp only [hx, if_false] at h
      simp only [if_true]
      omega
    · rfl
    · rfl
    · apply ih
      simp only [if_true]
      have : (if x = 0 then 0 else 1) ≤ 1 := by split_ifs <;> omega
      omega
    · apply ih
      have a1 : (if x = 0 then 0 else 1) ≤ 1 := by split_ifs <;> omega
      have a2 : (if x + runewidth g (buf_get b off) x = 0 then 0 else 1) ≤ 1 := by
        split_ifs <;> omega
      omega

/-- One round of the loop, on the level of results. -/
theorem Eval_unfold (g : Gui) (b : Buf) (grw : Int) (lim off : Nat) (x : Int)
    (li r : LineInfo) :
    Eval g b grw lim off x li r ↔
      (if overflows g b grw off x then
        (if (pushoff li off (lim != nolimit)).1 = false then
          r = (pushoff li off (lim != nolimit)).2
        else Eval g b grw lim off 0 (pushoff li off (lim != nolimit)).2 r)
      else if off ≥ lim then r = li
      else if buf_get b off = 10 then
        (if (pushoff li (off + 1) (lim != nolimit)).1 = false then
          r = (pushoff li (off + 1) (lim != nolimit)).2
        else Eval g b grw lim (off + 1) 0 (pushoff li (off + 1) (lim != nolimit)).2 r)
      else Eval g b grw lim (off + 1) (x + runewidth g (buf_get b off) x) li r) := by
  constructor
  · rintro ⟨fuel, h⟩
    cases fuel with
    | zero => simp [lineinfo_loop] at h
    | succ n =>
      rw [lineinfo_loop] at h
      simp only at h
      unfold overflows
      split_ifs at h ⊢ with h1 h2 h3 h4 h5
      · exact (Option.some.inj h).symm
      · exact ⟨n, h⟩
      · exact (Option.some.inj h).symm
      · exact (Option.some.inj h).symm
      · exact ⟨n, h⟩
      · exact ⟨n, h⟩
  · intro h
    unfold overflows at h
    split_ifs at h with h1 h2 h3 h4 h5
    · refine ⟨1, ?_⟩
      rw [lineinfo_loop]; simp only; rw [if_pos h1, if_pos h2, h]
    · obtain ⟨n, hn⟩ := h
      refine ⟨n + 1, ?_⟩
      rw [lineinfo_loop]; simp only; rw [if_pos h1, if_neg h2, hn]
    · refine ⟨1, ?_⟩
      rw [lineinfo_loop]; simp only; rw [if_neg h1, if_pos h3, h]
    · refine ⟨1, ?_⟩
      rw [lineinfo_loop]; simp only; rw [if_neg h1, if_neg h3, if_pos h4, if_pos h5, h]
    · obtain ⟨n, hn⟩ := h
      refine ⟨n + 1, ?_⟩
      rw [lineinfo_loop]; simp only; rw [if_neg h1, if_neg h3, if_pos h4, if_neg h5, hn]
    · obtain ⟨n, hn⟩ := h
      refine ⟨n + 1, ?_⟩
      rw [lineinfo_loop]; simp only; rw [if_neg h1, if_neg h3, if_neg h4, hn]

/-! ## Scanning one display line -/

theorem pen_zero (g : Gui) (b : Buf) (s : Nat) : pen g b s 0 = 0 := rfl

theorem pen_succ (g : Gui) (b : Buf) (s k : Nat) :
    pen g b s (k + 1) = pen g b s k + runewidth g (buf_get b (s + k)) (pen g b s k) := rfl

theorem not_overflows_zero (g : Gui) (b : Buf) (grw : Int) (c : Nat) :
    ¬ overflows g b grw c 0 := by
  intro h; exact h.2 rfl

/-- At an offset of the line of s before any break, the rune fits. -/
theorem not_overflows_of_no_brk (g : Gui) (b : Buf) (grw : Int) (s c : Nat) (hsc : s ≤ c)
    (h : s < c → ¬ brk g b grw s c) : ¬ overflows g b grw c (pen g b s (c - s)) := by
  rcases Nat.eq_or_lt_of_le hsc with heq | hlt
  · subst heq
    simp only [Nat.sub_self, pen_zero]
    exact not_overflows_zero g b grw s
  · intro ho
    exact h hlt (Or.inr ho)

/-- The loop walks from c to c1 along the line of s when no break lies in
between. -/
theorem Eval_scan (g : Gui) (b : Buf) (grw : Int) (lim s c : Nat) (li r : LineInfo)
    (hsc : s ≤ c) (hc : s < c → ¬ brk g b grw s c) :
    ∀ d : Nat, c + d ≤ lim → (∀ e, c < e → e ≤ c + d → ¬ brk g b grw s e) →
      (Eval g b grw lim c (pen g b s (c - s)) li r ↔
        Eval g b grw lim (c + d) (pen g b s (c + d - s)) li r) := by
  intro d
  induction d with
  | zero => intro _ _; simp
  | succ d ih =>
    intro hlim hno
    have h1 := ih (by omega) (fun e he1 he2 => hno e he1 (by omega))
    rw [h1, Eval_unfold g b grw lim (c + d)]
    have hov : ¬ overflows g b grw (c + d) (pen g b s (c + d - s)) := by
      apply not_overflows_of_no_brk g b grw s (c + d) (by omega)
      intro hlt
      rcases Nat.eq_zero_or_pos d with hd | hd
      · subst hd; exact hc (by simpa using hlt)
      · exact hno (c + d) (by omega) (by omega)
    have hnl : buf_get b (c + d) ≠ 10 := by
      intro hnl
      apply hno (c + d + 1) (by omega) (by omega)
      left
      simpa using hnl
    rw [if_neg hov, if_neg (by omega), if_neg hnl]
    have e1 : c + (d + 1) - s = (c + d - s) + 1 := by omega
    have e2 : s + (c + d - s) = c + d := by omega
    rw [e1, pen_succ, e2]
    rfl

/-- From a line start the loop reaches the first wrap boundary and pushes
it. -/
theorem Eval_hit (g : Gui) (b : Buf) (grw : Int) (lim s e : Nat) (li r : LineInfo)
    (hb : IsFirstBoundary g b grw s e) (he : e ≤ lim) :
    Eval g b grw lim s 0 li r ↔
      (if (pushoff li e (lim != nolimit)).1 = false then
        r = (pushoff li e (lim != nolimit)).2
      else Eval g b grw lim e 0 (pushoff li e (lim != nolimit)).2 r) := by
  obtain ⟨hse, hbrk, hmin⟩ := hb
  have hs := Eval_scan g b grw lim s s li r (le_refl s) (fun h => absurd h (lt_irrefl s))
    (e - 1 - s) (by omega) (fun c hc1 hc2 => hmin c (by omega) hc1)
  simp only [Nat.sub_self, pen_zero] at hs
  rw [hs]
  have e0 : s + (e - 1 - s) = e - 1 := by omega
  rw [e0, Eval_unfold g b grw lim (e - 1)]
  have hov : ¬ overflows g b grw (e - 1) (pen g b s (e - 1 - s)) := by
    apply not_overflows_of_no_brk g b grw s (e - 1) (by omega)
    intro hlt
    exact hmin (e - 1) (by omega) hlt
  have e1 : e - 1 + 1 = e := by omega
  rw [if_neg hov, if_neg (by omega), e1]
  by_cases hnl : buf_get b (e - 1) = 10
  · rw [if_pos hnl]
  · rw [if_neg hnl]
    have hov2 : overflows g b grw e (pen g b s (e - s)) := by
      rcases hbrk with h | h
      · exact absurd h hnl
      · exact h
    have e2 : e - s = (e - 1 - s) + 1 := by omega
    have e3 : pen g b s (e - 1 - s) + runewidth g (buf_get b (e - 1)) (pen g b s (e - 1 - s))
        = pen g b s (e - s) := by
      rw [e2, pen_succ, e0]
    rw [e3, Eval_unfold g b grw lim e, if_pos hov2]

/-- From a line start with no wrap boundary up to the limit the loop ends
without a push. -/
theorem Eval_miss (g : Gui) (b : Buf) (grw : Int) (lim s : Nat) (li r : LineInfo)
    (hno : ∀ c, s < c → c ≤ lim → ¬ brk g b grw s c) :
    Eval g b grw lim s 0 li r ↔ r = li := by
  by_cases hsl : s ≤ lim
  · have hs := Eval_scan g b grw lim s s li r (le_refl s) (fun h => absurd h (lt_irrefl s))
      (lim - s) (by omega) (fun c hc1 hc2 => hno c hc1 (by omega))
    simp only [Nat.sub_self, pen_zero] at hs
    rw [hs]
    have e0 : s + (lim - s) = lim := by omega
    rw [e0, Eval_unfold g b grw lim lim]
    have hov : ¬ overflows g b grw lim (pen g b s (lim - s)) := by
      apply not_overflows_of_no_brk g b grw s lim hsl
      intro hlt
      exact hno lim hlt (le_refl _)
    rw [if_neg hov, if_pos (le_refl lim)]
  · rw [Eval_unfold g b grw lim s, if_neg (not_overflows_zero g b grw s), if_pos (by omega)]

/-- A break after s up to the limit gives a first wrap boundary up to the
limit. -/
theorem exists_first_boundary (g : Gui) (b : Buf) (grw : Int) (s lim : Nat)
    (h : ∃ c, s < c ∧ c ≤ lim ∧ brk g b grw s c) :
    ∃ e, IsFirstBoundary g b grw s e ∧ e ≤ lim := by
  classical
  have h2 : ∃ c, s < c ∧ brk g b grw s c := by
    obtain ⟨c, h1, _, h3⟩ := h
    exact ⟨c, h1, h3⟩
  refine ⟨Nat.find h2, ⟨(Nat.find_spec h2).1, (Nat.find_spec h2).2, ?_⟩, ?_⟩
  · intro c hc hsc hb
    exact Nat.find_min h2 hc ⟨hsc, hb⟩
  · obtain ⟨c, h1, hl, h3⟩ := h
    exact le_trans (Nat.find_min' h2 ⟨h1, h3⟩) hl

theorem first_boundary_unique (g : Gui) (b : Buf) (grw : Int) (s e1 e2 : Nat)
    (h1 : IsFirstBoundary g b grw s e1) (h2 : IsFirstBoundary g b grw s e2) : e1 = e2 := by
  rcases Nat.lt_trichotomy e1 e2 with h | h | h
  · exact absurd h1.2.1 (h2.2.2 e1 h h1.1)
  · exact h
  · exact absurd h2.2.1 (h1.2.2 e2 h h2.1)

/-- With no limit a full ring is never changed. -/
theorem lineinfo_loop_full (g : Gui) (b : Buf) (grw : Int) :
    ∀ (fuel off : Nat) (x : Int) (li r : LineInfo), li.len = RingSize →
      lineinfo_loop g b grw nolimit fuel off x li = some r → r = li := by
  intro fuel
  induction fuel with
  | zero => intro off x li r _ h; simp [lineinfo_loop] at h
  | succ n ih =>
    intro off x li r hlen h
    have hp : ∀ o, pushoff li o (nolimit != nolimit) = (false, li) := by
      intro o; simp [pushoff, hlen]
    rw [lineinfo_loop] at h
    simp only [hp] at h
    split_ifs at h with h1 h3 h4
    · exact (Option.some.inj h).symm
    · exact (Option.some.inj h).symm
    · exact (Option.some.inj h).symm
    · exact ih _ _ _ _ hlen h

theorem lineinfo_isSome (g : Gui) (w : W) (b : Buf) (hb : w.eb = some b) (off lim : Nat) :
    ∃ r, lineinfo g w off lim = some r := by
  unfold lineinfo
  rw [hb]
  simp only
  apply Option.isSome_iff_exists.mp
  apply lineinfo_loop_isSome
  simp

/-- What lineinfo computes, in terms of the loop results. -/
theorem lineinfo_eq_some (g : Gui) (w : W) (b : Buf) (hb : w.eb = some b) (off lim : Nat)
    (r : LineInfo) :
    lineinfo g w off lim = some r ↔
      Eval g b w.gr.w lim off 0
        (pushoff { beg := 0, len := 0, sl := fun _ => 0 } off (lim != nolimit)).2 r := by
  constructor
  · intro h
    unfold lineinfo at h
    rw [hb] at h
    exact ⟨_, h⟩
  · intro h
    obtain ⟨r2, h2⟩ := lineinfo_isSome g w b hb off lim
    have h3 : Eval g b w.gr.w lim off 0
        (pushoff { beg := 0, len := 0, sl := fun _ => 0 } off (lim != nolimit)).2 r2 := by
      unfold lineinfo at h2
      rw [hb] at h2
      exact ⟨_, h2⟩
    rw [h2, Eval_det g b w.gr.w lim off 0 _ r r2 h h3]

theorem pushoff_first (s : Nat) (ow : Bool) :
    (pushoff { beg := 0, len := 0, sl := fun _ => 0 } s ow).2 = ring1 s := by
  simp [pushoff, ring1, RingSize]

/-- The call lineinfo(w, s, -1u): the ring starts at index 0 with s, and
holds the first wrap boundary after s exactly when there is one up to the
sentinel. -/
theorem lineinfo_nolimit (g : Gui) (w : W) (b : Buf) (hb : w.eb = some b) (s : Nat)
    (r : LineInfo) (h : lineinfo g w s nolimit = some r) :
    r.beg = 0 ∧ r.sl 0 = s ∧ r.len ≤ 2 ∧
      ((r.len = 2 ∧ IsFirstBoundary g b w.gr.w s (r.sl 1) ∧ r.sl 1 ≤ nolimit) ∨
       (r.len = 1 ∧ ¬ ∃ e, IsFirstBoundary g b w.gr.w s e ∧ e ≤ nolimit)) := by
  rw [lineinfo_eq_some g w b hb, pushoff_first] at h
  by_cases hex : ∃ e, IsFirstBoundary g b w.gr.w s e ∧ e ≤ nolimit
  · obtain ⟨e, he1, he2⟩ := hex
    rw [Eval_hit g b w.gr.w nolimit s e _ r he1 he2] at h
    have hp : pushoff (ring1 s) e (nolimit != nolimit) =
        (true, { beg := 0, len := 2,
                 sl := Function.update (Function.update (fun _ => 0) 0 s) 1 e }) := by
      simp [pushoff, ring1, RingSize]
    rw [hp] at h
    simp only [Bool.true_eq_false, if_false] at h
    obtain ⟨fuel, hf⟩ := h
    have := lineinfo_loop_full g b w.gr.w fuel e 0 _ r rfl hf
    subst this
    refine ⟨rfl, by simp, by simp, Or.inl ⟨rfl, ?_, ?_⟩⟩
    · simpa using he1
    · simpa using he2
  · have hno : ∀ c, s < c → c ≤ nolimit → ¬ brk g b w.gr.w s c := by
      intro c h1 h2 h3
      exact hex (exists_first_boundary g b w.gr.w s nolimit ⟨c, h1, h2, h3⟩)
    rw [Eval_miss g b w.gr.w nolimit s _ r hno] at h
    subst h
    refine ⟨rfl, by simp [ring1], by simp [ring1], Or.inr ⟨rfl, hex⟩⟩

/-! ## The table built by update -/

/-- The outer loop of update: what a returned table looks like. -/
theorem update_loop_spec (g : Gui) (w : W) (b : Buf) (hb : w.eb = some b) :
    ∀ (fuel l : Nat) (tbl T : Nat → Nat), 1 ≤ l → update_loop g w fuel l tbl = some T →
      (∀ i, i < l → T i = tbl i) ∧ (∀ i : Nat, w.nl < (i : Int) → T i = tbl i) ∧
      (∀ i : Nat, l ≤ i → (i : Int) ≤ w.nl →
        IsFirstBoundary g b w.gr.w (T (i - 1)) (T i) ∧ T i ≤ nolimit) := by
  intro fuel
  induction fuel with
  | zero =>
    intro l tbl T _ h
    rw [update_loop] at h
    split_ifs at h with h1
    have := Option.some.inj h
    subst this
    refine ⟨fun _ _ => rfl, fun _ _ => rfl, ?_⟩
    intro i hi1 hi2
    omega
  | succ n ih =>
    intro l tbl T hl h
    rw [update_loop] at h
    split_ifs at h with h1
    · cases hli : lineinfo g w (tbl (l - 1)) nolimit with
      | none => rw [hli] at h; simp at h
      | some li =>
        rw [hli] at h
        simp only at h
        split_ifs at h with h2
        obtain ⟨hbeg, hs0, hle, hcase⟩ := lineinfo_nolimit g w b hb _ li hli
        rcases hcase with ⟨hlen, hfb, hlim⟩ | ⟨hlen, _⟩
        · have hcopy : update_copy li (li.len - 1) 1 l tbl =
              (l + 1, Function.update tbl l (li.sl 1)) := by
            rw [hlen]
            simp [update_copy, hbeg, RingSize]
          rw [hcopy] at h
          obtain ⟨a1, a2, a3⟩ := ih (l + 1) _ T (by omega) h
          have hTl : T l = li.sl 1 := by
            rw [a1 l (by omega)]; simp
          have hTl1 : T (l - 1) = tbl (l - 1) := by
            rw [a1 (l - 1) (by omega)]
            exact Function.update_noteq (by omega) _ _
          refine ⟨?_, ?_, ?_⟩
          · intro i hi
            rw [a1 i (by omega)]
            exact Function.update_noteq (by omega) _ _
          · intro i hi
            rw [a2 i hi]
            apply Function.update_noteq
            intro heq
            subst heq
            omega
          · intro i hi1 hi2
            rcases Nat.eq_or_lt_of_le hi1 with heq | hlt
            · subst heq
              rw [hTl, hTl1]
              exact ⟨hfb, hlim⟩
            · exact a3 i (by omega) hi2
        · omega
    · have := Option.some.inj h
      subst this
      refine ⟨fun _ _ => rfl, fun _ _ => rfl, ?_⟩
      intro i hi1 hi2
      omega

theorem update_eq_some (g : Gui) (w w1 : W) (h : update g w = some w1) :
    ∃ T, update_loop g w w.nl.toNat 1 w.l = some T ∧ w1 = { w with l := T } := by
  unfold update at h
  cases hT : update_loop g w w.nl.toNat 1 w.l with
  | none => rw [hT] at h; simp at h
  | some T =>
    rw [hT] at h
    simp only [Option.map_some'] at h
    exact ⟨T, rfl, (Option.some.inj h).symm⟩

/-- Rows of the table built by update increase strictly. -/
theorem update_increasing (g : Gui) (w w1 : W) (h : update g w = some w1) :
    w1.l 0 = w.l 0 ∧
      ∀ i : Nat, 1 ≤ i → (i : Int) ≤ w.nl → w1.l (i - 1) < w1.l i := by
  obtain ⟨T, hT, rfl⟩ := update_eq_some g w w1 h
  cases hb : w.eb with
  | none =>
    cases hn : w.nl.toNat with
    | zero =>
      rw [hn] at hT
      simp only [update_loop] at hT
      split_ifs at hT with h1
      have := Option.some.inj hT
      subst this
      refine ⟨rfl, ?_⟩
      intro i hi1 hi2
      push_cast at h1
      omega
    | succ n =>
      rw [hn, update_loop] at hT
      have h1 : ((1 : Nat) : Int) ≤ w.nl := by
        have := Int.toNat_of_nonneg (show 0 ≤ w.nl by
          by_contra hc
          have : w.nl.toNat = 0 := Int.toNat_eq_zero.mpr (by omega)
          omega)
        omega
      rw [if_pos h1] at hT
      simp [lineinfo, hb] at hT
  | some b =>
    obtain ⟨a1, _, a3⟩ := update_loop_spec g w b hb _ 1 w.l T (le_refl 1) hT
    refine ⟨a1 0 (by omega), ?_⟩
    intro i hi1 hi2
    exact (a3 i hi1 hi2).1.1

/-- Rows of the table built by update do not decrease. -/
theorem update_mono (g : Gui) (w w1 : W) (h : update g w = some w1) :
    ∀ i j : Nat, i ≤ j → (j : Int) ≤ w.nl → w1.l i ≤ w1.l j := by
  obtain ⟨_, hs⟩ := update_increasing g w w1 h
  intro i j hij
  induction j with
  | zero =>
    intro _
    have : i = 0 := by omega
    subst this
    exact le_refl _
  | succ j ih =>
    intro hj
    rcases Nat.eq_or_lt_of_le hij with heq | hlt
    · subst heq; exact le_refl _
    · have h1 := ih (by omega) (by push_cast at hj ⊢; omega)
      have h2 := hs (j + 1) (by omega) hj
      simp only [Nat.add_sub_cancel] at h2
      omega

/-! ## Claims on update -/

theorem Steps_le (g : Gui) (b : Buf) (grw : Int) {n s e : Nat} (h : Steps g b grw n s e) :
    s + n ≤ e := by
  induction h with
  | zero => simp
  | succ _ hb ih => have := hb.1; omega

theorem Steps_cons (g : Gui) (b : Buf) (grw : Int) {n s m e : Nat}
    (h1 : IsFirstBoundary g b grw s m) (h2 : Steps g b grw n m e) :
    Steps g b grw (n + 1) s e := by
  induction h2 with
  | zero => exact Steps.succ (Steps.zero s) h1
  | succ _ hb ih => exact Steps.succ (ih h1) hb

theorem Steps_trans (g : Gui) (b : Buf) (grw : Int) {n m s c e : Nat}
    (h1 : Steps g b grw n s c) (h2 : Steps g b grw m c e) : Steps g b grw (n + m) s e := by
  induction h2 with
  | zero => exact h1
  | succ _ hb ih => exact Steps.succ (ih h1) hb

theorem Steps_det (g : Gui) (b : Buf) (grw : Int) {n s e1 e2 : Nat}
    (h1 : Steps g b grw n s e1) (h2 : Steps g b grw n s e2) : e1 = e2 := by
  induction h1 generalizing e2 with
  | zero => cases h2; rfl
  | succ _ hb ih =>
    cases h2 with
    | succ h2a h2b =>
      have := ih h2a
      subst this
      exact first_boundary_unique g b grw _ _ _ hb h2b

/-- A chain can be cut after its first n steps. -/
theorem Steps_split (g : Gui) (b : Buf) (grw : Int) {k s e : Nat}
    (h : Steps g b grw k s e) : ∀ n m, k = n + m →
      ∃ c, Steps g b grw n s c ∧ Steps g b grw m c e := by
  induction h with
  | zero =>
    intro n m hk
    have h1 : n = 0 := by omega
    have h2 : m = 0 := by omega
    subst h1 h2
    exact ⟨_, Steps.zero _, Steps.zero _⟩
  | succ hs hb ih =>
    rename_i k0 s0 m0 e0
    intro n m hk
    rcases Nat.eq_zero_or_pos m with hm | hm
    · subst hm
      have : n = k0 + 1 := by omega
      subst this
      exact ⟨_, Steps.succ hs hb, Steps.zero _⟩
    · obtain ⟨c, hc1, hc2⟩ := ih n (m - 1) (by omega)
      refine ⟨c, hc1, ?_⟩
      have : m = (m - 1) + 1 := by omega
      rw [this]
      exact Steps.succ hc2 hb

theorem Steps_mono (g : Gui) (b : Buf) (grw : Int) {n m s a c : Nat}
    (h1 : Steps g b grw n s a) (h2 : Steps g b grw m s c) (hnm : n < m) : a < c := by
  obtain ⟨d, hd1, hd2⟩ := Steps_split g b grw h2 n (m - n) (by omega)
  have := Steps_det g b grw h1 hd1
  subst this
  have := Steps_le g b grw hd2
  omega

theorem pushoff_ring1 (li : LineInfo) (a e : Nat) (h : Ring1 li a) :
    (pushoff li e true).1 = true ∧ Ring2 (pushoff li e true).2 a e := by
  obtain ⟨h1, h2, h3⟩ := h
  simp [pushoff, Ring2, h1, h2, h3, RingSize]

theorem pushoff_ring2 (li : LineInfo) (a c e : Nat) (h : Ring2 li a c) :
    (pushoff li e true).1 = true ∧ Ring2 (pushoff li e true).2 c e := by
  obtain ⟨h1, h2, h3, h4⟩ := h
  have hb : li.beg = 0 ∨ li.beg = 1 := by omega
  rcases hb with hb | hb
  · rw [hb] at h3 h4
    simp [pushoff, Ring2, hb, h2, RingSize]
    simpa using h4
  · rw [hb] at h3 h4
    simp [pushoff, Ring2, hb, h2, RingSize]
    simpa using h4

theorem ring1_Ring1 (s : Nat) : Ring1 (ring1 s) s := by
  simp [Ring1, ring1]

/-- The loop under a real limit, started at a line start s that is the
newest offset of the ring: it ends on the last wrap boundary c of the
chain from s that does not pass the limit, with c the newest offset and its
predecessor in the chain the older one. -/
theorem Eval_limit (g : Gui) (b : Buf) (grw : Int) (lim : Nat) (hlim : lim ≠ nolimit) :
    ∀ (d s : Nat) (li r : LineInfo), lim - s ≤ d →
      (Ring1 li s ∨ ∃ a, Ring2 li a s) → Eval g b grw lim s 0 li r →
      ∃ n c, Steps g b grw n s c ∧ (∀ e, IsFirstBoundary g b grw c e → lim < e) ∧
        (0 < n → c ≤ lim) ∧ (n = 0 → r = li) ∧
        (0 < n → ∃ a m, Ring2 r a c ∧ IsFirstBoundary g b grw a c ∧ m + 1 = n ∧
          Steps g b grw m s a) := by
  have how : (lim != nolimit) = true := by simpa using hlim
  intro d
  induction d with
  | zero =>
    intro s li r hd _ hev
    have hno : ∀ c, s < c → c ≤ lim → ¬ brk g b grw s c := by
      intro c h1 h2; omega
    rw [Eval_miss g b grw lim s li r hno] at hev
    refine ⟨0, s, Steps.zero s, ?_, fun h => absurd h (lt_irrefl 0), fun _ => hev,
      fun h => absurd h (lt_irrefl 0)⟩
    intro e he
    have := he.1
    omega
  | succ d ih =>
    intro s li r hd hring hev
    by_cases hex : ∃ e, IsFirstBoundary g b grw s e ∧ e ≤ lim
    · obtain ⟨e, he1, he2⟩ := hex
      rw [Eval_hit g b grw lim s e li r he1 he2, how] at hev
      have hp : (pushoff li e true).1 = true ∧ Ring2 (pushoff li e true).2 s e := by
        rcases hring with h | ⟨a, h⟩
        · exact pushoff_ring1 li s e h
        · exact pushoff_ring2 li a s e h
      rw [if_neg (by simp [hp.1])] at hev
      have hse := he1.1
      obtain ⟨n, c, hc1, hc2, hc3, hc4, hc5⟩ :=
        ih e (pushoff li e true).2 r (by omega) (Or.inr ⟨s, hp.2⟩) hev
      refine ⟨n + 1, c, Steps_cons g b grw he1 hc1, hc2, ?_, fun h => by omega, ?_⟩
      · intro _
        rcases Nat.eq_zero_or_pos n with hn | hn
        · subst hn
          cases hc1
          exact he2
        · exact hc3 hn
      · intro _
        rcases Nat.eq_zero_or_pos n with hn | hn
        · subst hn
          cases hc1
          refine ⟨s, 0, ?_, he1, rfl, Steps.zero s⟩
          rw [hc4 rfl]
          exact hp.2
        · obtain ⟨a, m, ha1, ha2, ha3, ha4⟩ := hc5 hn
          exact ⟨a, m + 1, ha1, ha2, by omega, Steps_cons g b grw he1 ha4⟩
    · have hno : ∀ c, s < c → c ≤ lim → ¬ brk g b grw s c := by
        intro c h1 h2 h3
        exact hex (exists_first_boundary g b grw s lim ⟨c, h1, h2, h3⟩)
      rw [Eval_miss g b grw lim s li r hno] at hev
      refine ⟨0, s, Steps.zero s, ?_, fun h => absurd h (lt_irrefl 0), fun _ => hev,
        fun h => absurd h (lt_irrefl 0)⟩
      intro e he
      by_contra hc
      exact hex ⟨e, he, by omega⟩

/-- The call lineinfo(w, s, lim) with a real limit. -/
theorem lineinfo_limit (g : Gui) (w : W) (b : Buf) (hb : w.eb = some b) (s lim : Nat)
    (hlim : lim ≠ nolimit) :
    ∃ r, lineinfo g w s lim = some r ∧
      ∃ n c, Steps g b w.gr.w n s c ∧ (∀ e, IsFirstBoundary g b w.gr.w c e → lim < e) ∧
        (0 < n → c ≤ lim) ∧ (n = 0 → Ring1 r s) ∧
        (0 < n → ∃ a m, Ring2 r a c ∧ IsFirstBoundary g b w.gr.w a c ∧ m + 1 = n ∧
          Steps g b w.gr.w m s a) := by
  obtain ⟨r, hr⟩ := lineinfo_isSome g w b hb s lim
  refine ⟨r, hr, ?_⟩
  rw [lineinfo_eq_some g w b hb, pushoff_first] at hr
  obtain ⟨n, c, h1, h2, h3, h4, h5⟩ :=
    Eval_limit g b w.gr.w lim hlim (lim - s) s (ring1 s) r (le_refl _)
      (Or.inl (ring1_Ring1 s)) hr
  refine ⟨n, c, h1, h2, h3, ?_, h5⟩
  intro hn
  rw [h4 hn]
  exact ring1_Ring1 s

/-! ## Buffer lines and display lines -/

theorem buf_bol_le (b : Buf) : ∀ y, buf_bol b y ≤ y := by
  intro y
  induction y with
  | zero => simp [buf_bol]
  | succ y ih =>
    rw [buf_bol]
    split_ifs
    · exact le_refl _
    · omega

theorem buf_bol_spec (b : Buf) : ∀ y,
    (buf_bol b y = 0 ∨ buf_get b (buf_bol b y - 1) = 10) ∧
      ∀ q, buf_bol b y < q → q ≤ y → buf_get b (q - 1) ≠ 10 := by
  intro y
  induction y with
  | zero =>
    refine ⟨Or.inl rfl, ?_⟩
    intro q h1 h2
    simp only [buf_bol] at h1
    omega
  | succ y ih =>
    rw [buf_bol]
    split_ifs with h
    · refine ⟨Or.inr (by simpa using h), ?_⟩
      intro q h1 h2
      omega
    · refine ⟨ih.1, ?_⟩
      intro q h1 h2
      rcases Nat.eq_or_lt_of_le h2 with heq | hlt
      · subst heq
        simpa using h
      · exact ih.2 q h1 (by omega)

theorem buf_bol_eq (b : Buf) (p y : Nat) (hpy : p ≤ y)
    (hp : p = 0 ∨ buf_get b (p - 1) = 10)
    (hno : ∀ q, p < q → q ≤ y → buf_get b (q - 1) ≠ 10) : buf_bol b y = p := by
  obtain ⟨h1, h2⟩ := buf_bol_spec b y
  have h3 := buf_bol_le b y
  rcases Nat.lt_trichotomy (buf_bol b y) p with h | h | h
  · rcases hp with hp | hp
    · omega
    · exact absurd hp (h2 p h hpy)
  · exact h
  · rcases h1 with h1 | h1
    · omega
    · exact absurd h1 (hno _ h h3)

/-- Offsets between the start of a buffer line and one of its offsets belong
to the same buffer line. -/
theorem buf_bol_between (b : Buf) (c y : Nat) (h1 : buf_bol b y ≤ c) (h2 : c ≤ y) :
    buf_bol b c = buf_bol b y := by
  obtain ⟨a1, a2⟩ := buf_bol_spec b y
  exact buf_bol_eq b _ c h1 a1 (fun q hq1 hq2 => a2 q hq1 (by omega))

/-- One backward step of win_scroll: the ring of lineinfo(bol, x - 1) ends
on the display line start c right before x, preceded, when the ring is
full, by the display line start before c. -/
theorem back_step (g : Gui) (w : W) (b : Buf) (hb : w.eb = some b) (x : Nat) (hx0 : 0 < x)
    (hx : x - 1 ≠ nolimit) (hls : LineStart g b w.gr.w x) :
    ∃ r, lineinfo g w (buf_bol b (x - 1)) (x - 1) = some r ∧
      ∃ c, IsFirstBoundary g b w.gr.w c x ∧ LineStart g b w.gr.w c ∧
        (Ring1 r c ∨ ∃ a, Ring2 r a c ∧ IsFirstBoundary g b w.gr.w a c ∧
          LineStart g b w.gr.w a) := by
  obtain ⟨r, hr, n, c, h1, h2, h3, h4, h5⟩ :=
    lineinfo_limit g w b hb (buf_bol b (x - 1)) (x - 1) hx
  refine ⟨r, hr, c, ?_⟩
  have hPc := Steps_le g b w.gr.w h1
  have hPx := buf_bol_le b (x - 1)
  have hcx : c ≤ x - 1 := by
    rcases Nat.eq_zero_or_pos n with hn | hn
    · subst hn
      cases h1
      exact hPx
    · exact h3 hn
  have hbc : buf_bol b c = buf_bol b (x - 1) := buf_bol_between b c (x - 1) (by omega) hcx
  have hlc : LineStart g b w.gr.w c := ⟨n, by rw [hbc]; exact h1⟩
  have hfb : IsFirstBoundary g b w.gr.w c x := by
    by_cases hnl : buf_get b (x - 1) = 10
    · obtain ⟨e, he1, he2⟩ := exists_first_boundary g b w.gr.w c x
        ⟨x, by omega, le_refl _, Or.inl hnl⟩
      have := h2 e he1
      have : e = x := by omega
      subst this
      exact he1
    · have hbx : buf_bol b x = buf_bol b (x - 1) := by
        have e : x = (x - 1) + 1 := by omega
        rw [e, buf_bol, if_neg hnl]
        simp
      obtain ⟨m, hm⟩ := hls
      rw [hbx] at hm
      have hnm : n < m := by
        by_contra hc
        rcases Nat.eq_or_lt_of_le (not_lt.mp hc) with heq | hlt
        · subst heq
          have := Steps_det g b w.gr.w h1 hm
          omega
        · have := Steps_mono g b w.gr.w hm h1 hlt
          omega
      obtain ⟨d, hd1, hd2⟩ := Steps_split g b w.gr.w hm (n + 1) (m - (n + 1)) (by omega)
      cases hd1 with
      | succ hd1a hd1b =>
        have := Steps_det g b w.gr.w h1 hd1a
        subst this
        have a1 := Steps_le g b w.gr.w hd2
        have a2 := h2 d hd1b
        have : d = x := by omega
        subst this
        exact hd1b
  refine ⟨hfb, hlc, ?_⟩
  rcases Nat.eq_zero_or_pos n with hn | hn
  · left
    have := h4 hn
    subst hn
    cases h1
    exact this
  · right
    obtain ⟨a, m, ha1, ha2, ha3, ha4⟩ := h5 hn
    refine ⟨a, ha1, ha2, ?_⟩
    have hPa := Steps_le g b w.gr.w ha4
    have hac := ha2.1
    have hba : buf_bol b a = buf_bol b (x - 1) :=
      buf_bol_between b a (x - 1) (by omega) (by omega)
    exact ⟨m, by rw [hba]; exact ha4⟩

/-! ## The loops of win_scroll -/

theorem scroll_back_take_ring1 (w : W) (r : LineInfo) (c x : Nat) (n : Int)
    (hr : Ring1 r c) (hn : n < 0) (hc : c < w.l 0) :
    scroll_back_take w r r.len x n = some (c, n + 1) := by
  obtain ⟨h1, h2, h3⟩ := hr
  rw [h2]
  simp [scroll_back_take, h1, h3, hn, hc, RingSize]

theorem scroll_back_take_ring2 (w : W) (r : LineInfo) (a c x : Nat) (n : Int)
    (hr : Ring2 r a c) (hn : n < 0) (hc : c < w.l 0) (ha : a < w.l 0) :
    scroll_back_take w r r.len x n =
      if n + 1 < 0 then some (a, n + 1 + 1) else some (c, n + 1) := by
  obtain ⟨h1, h2, h3, h4⟩ := hr
  have hb : r.beg % 2 = r.beg := Nat.mod_eq_of_lt h1
  rw [h2]
  simp [scroll_back_take, h3, h4, hb, hn, hc, ha, RingSize]

/-- The backward loop of win_scroll, started on a display line start x with
n < 0 lines to go: it returns a display line start t that lies j <= -n
display lines before x, and it stops short of -n lines only at offset 0. -/
theorem scroll_back_spec (g : Gui) (w : W) (b : Buf) (hb : w.eb = some b)
    (hl0 : w.l 0 ≤ nolimit) :
    ∀ (fuel x : Nat) (n : Int), n < 0 → -n ≤ (fuel : Int) → LineStart g b w.gr.w x →
      x ≤ w.l 0 →
      ∃ t j, scroll_back g w b fuel x n = some t ∧ LineStart g b w.gr.w t ∧
        Steps g b w.gr.w j t x ∧ (j : Int) ≤ -n ∧ ((j : Int) = -n ∨ t = 0) := by
  intro fuel
  induction fuel with
  | zero => intro x n h1 h2 _ _; simp at h2; omega
  | succ f ih =>
    intro x n hn hf hls hx
    rw [scroll_back]
    by_cases hx0 : x = 0
    · rw [if_pos hx0]
      exact ⟨x, 0, rfl, hls, Steps.zero x, by omega, Or.inr hx0⟩
    · rw [if_neg hx0]
      obtain ⟨r, hr, c, hc1, hc2, hring⟩ :=
        back_step g w b hb x (by omega) (by simp only [nolimit] at hl0 ⊢; omega) hls
      rw [hr]
      simp only
      have hcx := hc1.1
      rcases hring with h1 | ⟨a, h2, ha1, ha2⟩
      · rw [if_neg (by rw [h1.2.1]; omega), scroll_back_take_ring1 w r c x n h1 hn (by omega)]
        simp only
        by_cases hn1 : n + 1 < 0
        · rw [if_pos hn1]
          obtain ⟨t, j, e1, e2, e3, e4, e5⟩ :=
            ih c (n + 1) hn1 (by push_cast at hf; omega) hc2 (by omega)
          refine ⟨t, j + 1, e1, e2, Steps.succ e3 hc1, by push_cast; omega, ?_⟩
          rcases e5 with e5 | e5
          · left; push_cast; omega
          · right; exact e5
        · rw [if_neg hn1]
          exact ⟨c, 1, rfl, hc2, Steps.succ (Steps.zero c) hc1, by push_cast; omega,
            Or.inl (by push_cast; omega)⟩
      · have hac := ha1.1
        rw [if_neg (by rw [h2.2.1]; omega),
          scroll_back_take_ring2 w r a c x n h2 hn (by omega) (by omega)]
        by_cases hn1 : n + 1 < 0
        · rw [if_pos hn1]
          simp only
          by_cases hn2 : n + 1 + 1 < 0
          · rw [if_pos hn2]
            obtain ⟨t, j, e1, e2, e3, e4, e5⟩ :=
              ih a (n + 1 + 1) hn2 (by push_cast at hf; omega) ha2 (by omega)
            refine ⟨t, j + 1 + 1, e1, e2, Steps.succ (Steps.succ e3 ha1) hc1,
              by push_cast; omega, ?_⟩
            rcases e5 with e5 | e5
            · left; push_cast; omega
            · right; exact e5
          · rw [if_neg hn2]
            exact ⟨a, 2, rfl, ha2, Steps.succ (Steps.succ (Steps.zero a) ha1) hc1,
              by push_cast; omega, Or.inl (by push_cast; omega)⟩
        · rw [if_neg hn1]
          simp only
          rw [if_neg hn1]
          exact ⟨c, 1, rfl, hc2, Steps.succ (Steps.zero c) hc1, by push_cast; omega,
            Or.inl (by push_cast; omega)⟩

theorem win_scroll_eq_some (g : Gui) (w w1 : W) (b : Buf) (n : Int) (hb : w.eb = some b)
    (hn : n ≠ 0) (h : win_scroll g w n = some w1) :
    ∃ t, (if n < 0 then scroll_back g w b n.natAbs (w.l 0) n
          else scroll_fwd g w b n.natAbs (w.l 0) n) = some t ∧
      update g { w with l := Function.update w.l 0 t } = some w1 := by
  unfold win_scroll at h
  rw [if_neg hn] at h
  split at h
  · simp at h
  · rename_i b1 hb1
    have hbb : b1 = b := by rw [hb] at hb1; exact (Option.some.inj hb1).symm
    subst hbb
    cases ht : (if n < 0 then scroll_back g w b1 n.natAbs (w.l 0) n
        else scroll_fwd g w b1 n.natAbs (w.l 0) n) with
    | none => simp only [ht] at h; simp at h
    | some t => simp only [ht] at h; exact ⟨t, rfl, h⟩

theorem win_new_scan_none (s : State) : ∀ (left i : Nat),
    win_new_scan s left i = none ↔ ∀ j, i ≤ j → j < i + left → (s.wins j).eb ≠ none := by
  intro left
  induction left with
  | zero =>
    intro i
    simp only [win_new_scan, true_iff]
    intro j h1 h2
    omega
  | succ n ih =>
    intro i
    rw [win_new_scan]
    by_cases h : (s.wins i).eb.isNone = true
    · rw [if_pos h]
      simp only [reduceCtorEq, false_iff, not_forall]
      exact ⟨i, le_refl _, by omega, by simpa using h⟩
    · rw [if_neg h, ih]
      constructor
      · intro hall j h1 h2
        rcases Nat.eq_or_lt_of_le h1 with heq | hlt
        · subst heq
          simpa using h
        · exact hall j (by omega) (by omega)
      · intro hall j h1 h2
        exact hall j (by omega) (by omega)

theorem win_new_scan_some (s : State) : ∀ (left i m : Nat), win_new_scan s left i = some m →
    i ≤ m ∧ m < i + left ∧ (s.wins m).eb = none ∧
      ∀ j, i ≤ j → j < m → (s.wins j).eb ≠ none := by
  intro left
  induction left with
  | zero => intro i m h; simp [win_new_scan] at h
  | succ n ih =>
    intro i m h
    rw [win_new_scan] at h
    by_cases hi : (s.wins i).eb.isNone = true
    · rw [if_pos hi] at h
      have := Option.some.inj h
      subst this
      refine ⟨le_refl _, by omega, by simpa using hi, ?_⟩
      intro j h1 h2
      omega
    · rw [if_neg hi] at h
      obtain ⟨a1, a2, a3, a4⟩ := ih (i + 1) m h
      refine ⟨by omega, by omega, a3, ?_⟩
      intro j h1 h2
      rcases Nat.eq_or_lt_of_le h1 with heq | hlt
      · subst heq
        simpa using hi
      · exact a4 j (by omega) h2

/-- C7: win_new returns the null pointer exactly when all MaxWins slots hold a
buffer, and then the module state is unchanged; otherwise it returns the
free slot of lowest index, with its buffer set to eb, its rectangle set to
(0, 0, fwidth, fheight) and its weight set to 500, every other slot and the
rest of the module state being unchanged. -/
theorem win_new_spec (k : Limits) (s : State) (eb : Buf) :
    ((win_new k s eb).1 = WPtr.null ↔ ∀ j, j < k.MaxWins → (s.wins j).eb ≠ none) ∧
    ((win_new k s eb).1 = WPtr.null → (win_new k s eb).2 = s) ∧
    (win_new k s eb).1 ≠ WPtr.tagwin ∧
    (∀ i, (win_new k s eb).1 = WPtr.slot i →
      i < k.MaxWins ∧ (s.wins i).eb = none ∧ (∀ j, j < i → (s.wins j).eb ≠ none) ∧
      (win_new k s eb).2.wins i =
        { s.wins i with eb := some eb,
                        gr := { x := 0, y := 0, w := s.fwidth, h := s.fheight },
                        hrig := 500 } ∧
      (∀ j, j ≠ i → (win_new k s eb).2.wins j = s.wins j) ∧
      (win_new k s eb).2.tag_win = s.tag_win ∧
      (win_new k s eb).2.tag_owner = s.tag_owner ∧
      (win_new k s eb).2.tag_visible = s.tag_visible ∧
      (win_new k s eb).2.fwidth = s.fwidth ∧ (win_new k s eb).2.fheight = s.fheight) := by
  unfold win_new
  cases h : win_new_scan s k.MaxWins 0 with
  | none =>
    dsimp only
    refine ⟨⟨fun _ j hj => (win_new_scan_none s k.MaxWins 0).mp h j (Nat.zero_le _) (by omega),
      fun _ => rfl⟩, fun _ => rfl, by simp, ?_⟩
    intro i hi
    simp at hi
  | some m =>
    obtain ⟨_, a2, a3, a4⟩ := win_new_scan_some s k.MaxWins 0 m h
    dsimp only
    refine ⟨⟨fun hc => by simp at hc, fun hall => absurd a3 (hall m (by omega))⟩,
      fun hc => by simp at hc, by simp, ?_⟩
    intro i hi
    have := WPtr.slot.inj hi
    subst this
    refine ⟨by omega, a3, fun j hj => a4 j (Nat.zero_le _) hj, by simp, ?_, rfl, rfl, rfl, rfl,
      rfl⟩
    intro j hj
    simp [Function.update_noteq hj]

/-- C7 on the full registry of the examples and on the empty one. -/
theorem win_new_spec_witness :
    (win_new demoLimits fullState (mkbuf scenText)).1 = WPtr.null ∧
    (win_new demoLimits fullState (mkbuf scenText)).2 = fullState ∧
    (win_new demoLimits initState (mkbuf scenText)).1 = WPtr.slot 0 ∧
    ((win_new demoLimits initState (mkbuf scenText)).2.wins 0).gr
      = { x := 0, y := 0, w := 10, h := 10 } ∧
    ((win_new demoLimits initState (mkbuf scenText)).2.wins 0).hrig = 500 := by
  have T := win_new_spec demoLimits fullState (mkbuf scenText)
  have hnull : (win_new demoLimits fullState (mkbuf scenText)).1 = WPtr.null := by decide
  exact ⟨hnull, T.2.1 hnull, by decide, by decide, by decide⟩

/-- C8: win_delete on a slot leaves every field of the slot zero and every
other slot unchanged, and the slot can be used again: a win_new issued right
after succeeds, whatever the other slots hold, and returns this slot when no
slot of lower index is free. -/
theorem win_delete_spec (k : Limits) (s : State) (i : Nat) (eb : Buf)
    (hi : i < k.MaxWins) :
    ∃ s1, win_delete k s (WPtr.slot i) = some s1 ∧
      (s1.wins i).eb = none ∧ (s1.wins i).cu = 0 ∧ (∀ j, (s1.wins i).l j = 0) ∧
      (s1.wins i).nl = 0 ∧ (s1.wins i).gr = { x := 0, y := 0, w := 0, h := 0 } ∧
      (s1.wins i).hrig = 0 ∧
      (∀ j, j ≠ i → s1.wins j = s.wins j) ∧
      s1.tag_win = s.tag_win ∧ s1.tag_owner = s.tag_owner ∧
      s1.tag_visible = s.tag_visible ∧ s1.fwidth = s.fwidth ∧ s1.fheight = s.fheight ∧
      (win_new k s1 eb).1 ≠ WPtr.null ∧
      ((∀ j, j < i → (s.wins j).eb ≠ none) → (win_new k s1 eb).1 = WPtr.slot i) := by
  refine ⟨{ s with wins := Function.update s.wins i W.zero }, ?_, ?_⟩
  · simp [win_delete, hi]
  · have hz : (Function.update s.wins i W.zero) i = W.zero := Function.update_same _ _ _
    refine ⟨by simp [W.zero], by simp [W.zero], by simp [W.zero], by simp [W.zero],
      by simp [W.zero], by simp [W.zero], ?_, rfl, rfl, rfl, rfl, rfl, ?_, ?_⟩
    · intro j hj
      simp [Function.update_noteq hj]
    · intro hnull
      have := ((win_new_spec k { s with wins := Function.update s.wins i W.zero } eb).1).mp
        hnull i hi
      simp [W.zero] at this
    · intro hlow
      have T := win_new_spec k { s with wins := Function.update s.wins i W.zero } eb
      unfold win_new at T ⊢
      cases h : win_new_scan { s with wins := Function.update s.wins i W.zero } k.MaxWins 0 with
      | none =>
        have := (win_new_scan_none _ k.MaxWins 0).mp h i (Nat.zero_le _) (by omega)
        simp [W.zero] at this
      | some m =>
        obtain ⟨_, a2, a3, a4⟩ := win_new_scan_some _ k.MaxWins 0 m h
        simp only [WPtr.slot.injEq]
        rcases Nat.lt_trichotomy m i with hlt | heq | hgt
        · exfalso
          apply hlow m hlt
          have : (Function.update s.wins i W.zero) m = s.wins m :=
            Function.update_noteq (by omega) _ _
          simpa [this] using a3
        · exact heq
        · exfalso
          apply a4 i (Nat.zero_le _) hgt
          simp [W.zero]

/-- C8 on the full registry of the examples: slot 1 is deleted and handed out
again by the next win_new. -/
theorem win_delete_spec_witness :
    (1 : Nat) < demoLimits.MaxWins ∧
    (win_new demoLimits fullState (mkbuf scenText)).1 = WPtr.null ∧
    ∃ s1, win_delete demoLimits fullState (WPtr.slot 1) = some s1 ∧
      (s1.wins 1).eb = none ∧ (s1.wins 1).hrig = 0 ∧
      (win_new demoLimits s1 (mkbuf scenText)).1 = WPtr.slot 1 := by
  have h1 : (1 : Nat) < demoLimits.MaxWins := by decide
  obtain ⟨s1, a1, a2, _, _, _, _, a3, _, _, _, _, _, _, _, a4⟩ :=
    win_delete_spec demoLimits fullState 1 (mkbuf scenText) h1
  refine ⟨h1, by decide, s1, a1, a2, a3, a4 ?_⟩
  intro j hj
  have : j = 0 := by omega
  subst this
  have h0 : (fullState.wins 0).eb.isSome = true := by decide
  exact Option.isSome_iff_ne_none.mp h0

/-! ## The frame layout -/

theorem update_fields (g : Gui) (w w1 : W) (h : update g w = some w1) :
    w1.nl = w.nl ∧ w1.cu = w.cu ∧ w1.eb = w.eb ∧ w1.gr = w.gr ∧ w1.hrig = w.hrig := by
  obtain ⟨T, _, rfl⟩ := update_eq_some g w w1 h
  exact ⟨rfl, rfl, rfl, rfl, rfl⟩

theorem ck_eq_some (v u : Int) (h : ck v = some u) : u = v := by
  unfold ck at h
  split_ifs at h
  exact (Option.some.inj h).symm

/-- What win_move_body does to the slots and to the frame size. -/
theorem win_move_body_frame (k : Limits) (g : Gui) (s s1 : State) (pw : WPtr) (x w h : Int)
    (hm : win_move_body k g s pw x w h = some s1) :
    s1.fwidth = s.fwidth ∧ s1.fheight = s.fheight ∧ s1.tag_owner = s.tag_owner ∧
    s1.tag_visible = s.tag_visible ∧
    ∀ j, (s1.wins j).eb = (s.wins j).eb ∧ (s1.wins j).hrig = (s.wins j).hrig ∧
      (s1.wins j).gr = if pw = WPtr.slot j ∧ w ≠ 0 ∧ h ≠ 0 then { x := x, y := 0, w := w, h := h }
                       else (s.wins j).gr := by
  unfold win_move_body at hm
  cases hg : getw k s pw with
  | none => rw [hg] at hm; simp at hm
  | some win =>
    rw [hg] at hm
    simp only at hm
    -- the window after the optional move
    have key : ∀ win1 : W, win1.eb = win.eb → win1.hrig = win.hrig →
        win1.gr = (if w ≠ 0 ∧ h ≠ 0 then { x := x, y := 0, w := w, h := h } else win.gr) →
        ∀ win2, update g win1 = some win2 → s1 = setw s pw win2 →
        s1.fwidth = s.fwidth ∧ s1.fheight = s.fheight ∧ s1.tag_owner = s.tag_owner ∧
        s1.tag_visible = s.tag_visible ∧
        ∀ j, (s1.wins j).eb = (s.wins j).eb ∧ (s1.wins j).hrig = (s.wins j).hrig ∧
          (s1.wins j).gr = if pw = WPtr.slot j ∧ w ≠ 0 ∧ h ≠ 0 then
              { x := x, y := 0, w := w, h := h }
            else (s.wins j).gr := by
      intro win1 e1 e2 e3 win2 hu hs
      obtain ⟨_, _, u3, u4, u5⟩ := update_fields g win1 win2 hu
      subst hs
      cases pw with
      | null => simp [getw] at hg
      | tagwin =>
        refine ⟨rfl, rfl, rfl, rfl, ?_⟩
        intro j
        simp [setw]
      | slot i =>
        simp only [getw] at hg
        split_ifs at hg with hi
        have hw := Option.some.inj hg
        refine ⟨rfl, rfl, rfl, rfl, ?_⟩
        intro j
        by_cases hij : j = i
        · subst hij
          simp only [setw, Function.update_same, true_and]
          rw [u3, u4, u5, e1, e2, e3, ← hw]
          simp
        · have hne : WPtr.slot i ≠ WPtr.slot j := by
            intro hc; exact hij (WPtr.slot.inj hc).symm
          simp only [setw, Function.update_noteq hij, hne, false_and, if_false, and_self]
    by_cases hwh : w ≠ 0 ∧ h ≠ 0
    · rw [if_pos hwh] at hm
      split_ifs at hm with h1 h2
      simp only at hm
      split at hm
      · simp at hm
      · rename_i win2 hu
        cases hd : draw k g win2 with
        | none => rw [hd] at hm; simp at hm
        | some u =>
          rw [hd] at hm
          exact key (W.mk win.l (Int.tdiv (h - VMargin) g.font_height) win.cu win.eb
            (GRect.mk x 0 w h) win.hrig) rfl rfl (by simp [hwh]) win2 hu
            (Option.some.inj hm).symm
    · rw [if_neg hwh] at hm
      simp only at hm
      split at hm
      · simp at hm
      · rename_i win2 hu
        cases hd : draw k g win2 with
        | none => rw [hd] at hm; simp at hm
        | some u =>
          rw [hd] at hm
          exact key win rfl rfl (by simp [hwh]) win2 hu (Option.some.inj hm).symm

/-- What win_move does to the slots and to the frame size. -/
theorem win_move_frame (k : Limits) (g : Gui) (s s1 : State) (pw : WPtr) (x w h : Int)
    (hm : win_move k g s pw x w h = some s1) :
    s1.fwidth = s.fwidth ∧ s1.fheight = s.fheight ∧ s1.tag_owner = s.tag_owner ∧
    s1.tag_visible = s.tag_visible ∧
    ∀ j, (s1.wins j).eb = (s.wins j).eb ∧ (s1.wins j).hrig = (s.wins j).hrig ∧
      (s1.wins j).gr = if pw = WPtr.slot j ∧ w ≠ 0 ∧ h ≠ 0 then { x := x, y := 0, w := w, h := h }
                       else (s.wins j).gr := by
  unfold win_move at hm
  cases hb : win_move_body k g s pw x w h with
  | none => rw [hb] at hm; simp at hm
  | some s0 =>
    rw [hb] at hm
    simp only at hm
    have F := win_move_body_frame k g s s0 pw x w h hb
    split_ifs at hm with h1 h2
    · obtain ⟨f1, f2, f3, f4, f5⟩ := F
      obtain ⟨g1, g2, g3, g4, g5⟩ := win_move_body_frame k g s0 s1 WPtr.tagwin 0 0 0 hm
      refine ⟨by rw [g1, f1], by rw [g2, f2], by rw [g3, f3], by rw [g4, f4], ?_⟩
      intro j
      obtain ⟨a1, a2, a3⟩ := g5 j
      obtain ⟨b1, b2, b3⟩ := f5 j
      refine ⟨by rw [a1, b1], by rw [a2, b2], ?_⟩
      rw [a3, if_neg (by simp), b3]
    · have := Option.some.inj hm
      subst this
      exact F

/-- The function win_tag_toggle leaves the slots as they are, up to their
line tables. -/
theorem win_tag_toggle_frame (k : Limits) (g : Gui) (s s1 : State) (w : WPtr)
    (ht : win_tag_toggle k g s w = some s1) :
    s1.fwidth = s.fwidth ∧ s1.fheight = s.fheight ∧
    ∀ j, (s1.wins j).eb = (s.wins j).eb ∧ (s1.wins j).hrig = (s.wins j).hrig ∧
      (s1.wins j).gr = (s.wins j).gr := by
  unfold win_tag_toggle at ht
  -- the state after the optional hiding step
  have key : ∀ s0 : State, s0.fwidth = s.fwidth → s0.fheight = s.fheight →
      (∀ j, (s0.wins j).eb = (s.wins j).eb ∧ (s0.wins j).hrig = (s.wins j).hrig ∧
        (s0.wins j).gr = (s.wins j).gr) →
      (match getw k s0 w with
        | none => none
        | some win =>
          win_move k g { s0 with tag_visible := true, tag_owner := w } WPtr.tagwin
            win.gr.x win.gr.w (Int.tdiv win.gr.h 3)) = some s1 →
      s1.fwidth = s.fwidth ∧ s1.fheight = s.fheight ∧
      ∀ j, (s1.wins j).eb = (s.wins j).eb ∧ (s1.wins j).hrig = (s.wins j).hrig ∧
        (s1.wins j).gr = (s.wins j).gr := by
    intro s0 e1 e2 e3 h
    cases hg : getw k s0 w with
    | none => rw [hg] at h; simp at h
    | some win =>
      rw [hg] at h
      simp only at h
      obtain ⟨f1, f2, _, _, f5⟩ := win_move_frame k g _ s1 _ _ _ _ h
      refine ⟨by rw [f1, ← e1], by rw [f2, ← e2], ?_⟩
      intro j
      obtain ⟨a1, a2, a3⟩ := f5 j
      obtain ⟨b1, b2, b3⟩ := e3 j
      refine ⟨by rw [a1]; exact b1, by rw [a2]; exact b2, ?_⟩
      rw [a3, if_neg (by simp)]
      exact b3
  by_cases hv : s.tag_visible = true
  · rw [if_pos hv] at ht
    cases hm : win_move k g { s with tag_visible := false } s.tag_owner 0 0 0 with
    | none => rw [hm] at ht; simp at ht
    | some s0 =>
      rw [hm] at ht
      simp only at ht
      obtain ⟨f1, f2, _, _, f5⟩ := win_move_frame k g _ s0 _ _ _ _ hm
      have e3 : ∀ j, (s0.wins j).eb = (s.wins j).eb ∧ (s0.wins j).hrig = (s.wins j).hrig ∧
          (s0.wins j).gr = (s.wins j).gr := by
        intro j
        obtain ⟨a1, a2, a3⟩ := f5 j
        refine ⟨a1, a2, ?_⟩
        rw [a3, if_neg (by simp)]
      by_cases hd : decide (w = s0.tag_owner) = true
      · rw [hd] at ht
        simp only at ht
        have := Option.some.inj ht
        subst this
        exact ⟨f1, f2, e3⟩
      · have hd2 : decide (w = s0.tag_owner) = false := by simpa using hd
        rw [hd2] at ht
        exact key s0 f1 f2 e3 ht
  · rw [if_neg hv] at ht
    exact key s rfl rfl (fun j => ⟨rfl, rfl, rfl⟩) ht

theorem rig_loop_eq (s : State) : ∀ (left i : Nat) (acc r : Int),
    rig_loop s left i acc = some r → r = acc + (rig_sum s (i + left) - rig_sum s i) := by
  intro left
  induction left with
  | zero =>
    intro i acc r h
    simp only [rig_loop] at h
    have := Option.some.inj h
    simp [this]
  | succ n ih =>
    intro i acc r h
    rw [rig_loop] at h
    cases hc : ck (acc + (s.wins i).hrig) with
    | none => rw [hc] at h; simp at h
    | some v =>
      rw [hc] at h
      simp only at h
      have e1 := ck_eq_some _ _ hc
      have e2 := ih (i + 1) v r h
      have e3 : i + (n + 1) = i + 1 + n := by omega
      rw [e2, e1, e3]
      simp only [rig_sum]
      ring

/-! ## When draw returns -/

/-- The table built by update follows the chain of wrap boundaries from its
top. -/
theorem update_steps (g : Gui) (w w1 : W) (b : Buf) (hb : w.eb = some b)
    (h : update g w = some w1) :
    ∀ i : Nat, (i : Int) ≤ w.nl → Steps g b w.gr.w i (w.l 0) (w1.l i) := by
  obtain ⟨T, hT, rfl⟩ := update_eq_some g w w1 h
  obtain ⟨a1, _, a3⟩ := update_loop_spec g w b hb _ 1 w.l T (le_refl 1) hT
  intro i
  induction i with
  | zero =>
    intro _
    show Steps g b w.gr.w 0 (w.l 0) (T 0)
    rw [a1 0 (by omega)]
    exact Steps.zero _
  | succ i ih =>
    intro hi
    have h1 := ih (by push_cast at hi ⊢; omega)
    have h2 := (a3 (i + 1) (by omega) hi).1
    simp only [Nat.add_sub_cancel] at h2
    exact Steps.succ h1 h2
theorem rig_sum_ge (s : State) (N : Nat) (hnn : ∀ j, j < N → 0 ≤ (s.wins j).hrig) :
    ∀ m, m ≤ N → 0 ≤ rig_sum s m ∧ ∀ j, j < m → (s.wins j).hrig ≤ rig_sum s m := by
  intro m
  induction m with
  | zero =>
    intro _
    refine ⟨by simp [rig_sum], ?_⟩
    intro j hj
    omega
  | succ m ih =>
    intro hm
    obtain ⟨a1, a2⟩ := ih (by omega)
    have := hnn m (by omega)
    simp only [rig_sum]
    refine ⟨by omega, ?_⟩
    intro j hj
    rcases Nat.eq_or_lt_of_le (Nat.le_of_lt_succ hj) with heq | hlt
    · subst heq; omega
    · have := a2 j hlt; omega

theorem ck_of_range (v : Int) (h1 : -2147483648 ≤ v) (h2 : v ≤ 2147483647) :
    ck v = some v := by
  unfold ck
  rw [if_pos ⟨h1, h2⟩]

theorem rig_loop_returns (s : State) (N : Nat) (hnn : ∀ j, j < N → 0 ≤ (s.wins j).hrig)
    (hsum : rig_sum s N ≤ 2147483647) :
    ∀ (left i : Nat), i + left ≤ N →
      ∃ r, rig_loop s left i (rig_sum s i) = some r := by
  intro left
  induction left with
  | zero => intro i _; exact ⟨rig_sum s i, by simp [rig_loop]⟩
  | succ n ih =>
    intro i hi
    rw [rig_loop]
    have h0 := (rig_sum_ge s N hnn (i + 1) (by omega)).1
    have hle : rig_sum s (i + 1) ≤ rig_sum s N := by
      have : ∀ m, i + 1 ≤ m → m ≤ N → rig_sum s (i + 1) ≤ rig_sum s m := by
        intro m hm1
        induction m with
        | zero => omega
        | succ m ihm =>
          intro hm2
          rcases Nat.eq_or_lt_of_le hm1 with heq | hlt
          · rw [heq]
          · have := ihm (by omega) (by omega)
            have := hnn m (by omega)
            simp only [rig_sum] at *
            omega
      exact this N (by omega) (le_refl _)
    have hss : rig_sum s (i + 1) = rig_sum s i + (s.wins i).hrig := rfl
    rw [← hss, ck_of_range _ (by omega) (by omega)]
    simp only
    exact ih (i + 1) (by omega)

set_option maxRecDepth 1000000 in
/-- C3 at a window with one visible line: with the cursor at offset 100 of the
scenario text, win_show_cursor sets the top l[0] to 84 for every location,
but for CBot and CMid the scroll amount is 0, win_scroll returns before
update and l[1] keeps its old value 4, so the cursor is not below l[nl];
for CTop update runs and l[1] becomes 164. -/
theorem show_cursor_one_line :
    (win_show_cursor scenGui scenWinOne CursorLoc.CBot).map
      (fun w => (w.l 0, w.l 1, w.cu, w.nl)) = some (84, 4, 100, 1) ∧
    (win_show_cursor scenGui scenWinOne CursorLoc.CMid).map
      (fun w => (w.l 0, w.l 1, w.cu, w.nl)) = some (84, 4, 100, 1) ∧
    (win_show_cursor scenGui scenWinOne CursorLoc.CTop).map
      (fun w => (w.l 0, w.l 1, w.cu, w.nl)) = some (84, 164, 100, 1) := by
  decide

/-- The cursor is on the screen after win_show_cursor whenever the table is
rebuilt: for the location CTop, and for CMid and CBot on a window of at least
two lines. -/
theorem show_cursor_in_range (g : Gui) (w w2 : W) (b : Buf) (loc : CursorLoc)
    (hb : w.eb = some b) (hcu : w.cu < nolimit) (hnl : 1 ≤ w.nl)
    (hcase : loc = CursorLoc.CTop ∨ 2 ≤ w.nl)
    (h : win_show_cursor g w loc = some w2) :
    w2.l 0 ≤ w.cu ∧ w.cu < w2.l w.nl.toNat := by
  obtain ⟨r, hr, n, c, h1, h2, h3, h4, h5⟩ :=
    lineinfo_limit g w b hb (buf_bol b w.cu) w.cu (ne_of_lt hcu)
  have hPc := Steps_le g b w.gr.w h1
  have hP := buf_bol_le b w.cu
  have hccu : c ≤ w.cu := by
    rcases Nat.eq_zero_or_pos n with hn | hn
    · subst hn; cases h1; exact hP
    · exact h3 hn
  have hbc : buf_bol b c = buf_bol b w.cu := buf_bol_between b c w.cu (by omega) hccu
  have hlc : LineStart g b w.gr.w c := ⟨n, by rw [hbc]; exact h1⟩
  have hnew : 0 < r.len ∧ r.sl ((r.beg + r.len - 1) % RingSize) = c := by
    rcases Nat.eq_zero_or_pos n with hn | hn
    · obtain ⟨q1, q2, q3⟩ := h4 hn
      subst hn
      cases h1
      rw [q1, q2]
      exact ⟨by omega, by simpa [RingSize] using q3⟩
    · obtain ⟨a, m, ⟨q1, q2, q3, q4⟩, _⟩ := h5 hn
      rw [q2]
      exact ⟨by omega, by simpa [RingSize] using q4⟩
  have hnlnat : ((w.nl.toNat : Nat) : Int) = w.nl := Int.toNat_of_nonneg (by omega)
  -- the table after update at a top t that lies j <= nl - 1 lines before c
  have fin : ∀ (w1 : W) (t j : Nat), w1.eb = some b → w1.gr = w.gr → w1.nl = w.nl →
      w1.l 0 = t → Steps g b w.gr.w j t c → (j : Int) + 1 ≤ w.nl → update g w1 = some w2 →
      w2.l 0 ≤ w.cu ∧ w.cu < w2.l w.nl.toNat := by
    intro w1 t j e1 e2 e3 e4 hst hj hu
    have hs := update_steps g w1 w2 b e1 hu
    rw [e2, e3, e4] at hs
    obtain ⟨u0, _⟩ := update_increasing g w1 w2 hu
    have hm := update_mono g w1 w2 hu
    have hcj : w2.l j = c := Steps_det g b w.gr.w (hs j (by omega)) hst
    have hnext := hs (j + 1) (by push_cast; omega)
    cases hnext with
    | succ hn1 hn2 =>
      have := Steps_det g b w.gr.w hn1 hst
      subst this
      have hgt := h2 _ hn2
      have hle := Steps_le g b w.gr.w hst
      have hmono := hm (j + 1) w.nl.toNat (by omega) (by rw [e3]; omega)
      refine ⟨by rw [u0, e4]; omega, by omega⟩
  unfold win_show_cursor at h
  rw [hb] at h
  simp only at h
  rw [hr] at h
  simp only at h
  rw [if_pos hnew.1, hnew.2] at h
  obtain ⟨w1, hw1⟩ : ∃ w1 : W,
      w1 = W.mk (Function.update w.l 0 c) w.nl w.cu (some b) w.gr w.hrig := ⟨_, rfl⟩
  rw [← hw1] at h
  have q1 : w1.eb = some b := by rw [hw1]
  have q2 : w1.gr = w.gr := by rw [hw1]
  have q3 : w1.nl = w.nl := by rw [hw1]
  have q4 : w1.l 0 = c := by rw [hw1]; simp
  have back : ∀ (n : Int), n < 0 → -n + 1 ≤ w.nl → win_scroll g w1 n = some w2 →
      w2.l 0 ≤ w.cu ∧ w.cu < w2.l w.nl.toNat := by
    intro n hn0 hn1 hs
    obtain ⟨t, ht, hu⟩ := win_scroll_eq_some g w1 w2 b n q1 (by omega) hs
    rw [if_pos hn0] at ht
    obtain ⟨t', j, e1, _, e3, e4, _⟩ := scroll_back_spec g w1 b q1
      (by rw [q4]; omega) n.natAbs (w1.l 0) n hn0 (by omega) (by rw [q2, q4]; exact hlc)
      (le_refl _)
    rw [e1] at ht
    have := Option.some.inj ht
    subst this
    rw [q2, q4] at e3
    exact fin { w1 with l := Function.update w1.l 0 t' } t' j q1 q2 q3 (by simp) e3
      (by omega) hu
  have h2nl : loc ≠ CursorLoc.CTop → 2 ≤ w.nl := by
    intro hne
    rcases hcase with hc | hc
    · exact absurd hc hne
    · exact hc
  cases loc with
  | CTop =>
    simp only at h
    exact fin w1 c 0 q1 q2 q3 q4 (Steps.zero c) (by omega) h
  | CBot =>
    simp only at h
    have := h2nl (by simp)
    exact back (-w.nl + 1) (by omega) (by omega) h
  | CMid =>
    simp only at h
    have := h2nl (by simp)
    have hdiv : Int.tdiv (-w.nl) 2 = -(w.nl / 2) := by
      rw [Int.neg_tdiv, Int.tdiv_eq_ediv (by omega) (by omega)]
    rw [hdiv] at h
    exact back (-(w.nl / 2)) (by omega) (by omega) h

/-! ## Claims on runewidth and lineinfo -/

/-- C14: for a tab stop tabw > 0 and a pen x >= 0, runewidth of a tab at x is
tabw - (x mod tabw); it lies between 1 and tabw, and x plus it is the
smallest multiple of tabw that is greater than x.  The width of a newline is
0 at every pen position. -/
theorem runewidth_tab (g : Gui) (x : Int) (ht : 0 < g.tabw) (hx : 0 ≤ x) :
    runewidth g 9 x = g.tabw - x % g.tabw ∧
    1 ≤ runewidth g 9 x ∧ runewidth g 9 x ≤ g.tabw ∧
    g.tabw ∣ x + runewidth g 9 x ∧ x < x + runewidth g 9 x ∧
    (∀ m : Int, g.tabw ∣ m → x < m → x + runewidth g 9 x ≤ m) ∧
    ∀ y : Int, runewidth g 10 y = 0 := by
  have hrw : runewidth g 9 x = g.tabw - x % g.tabw := by
    unfold runewidth
    rw [if_pos rfl, Int.tmod_eq_emod hx (le_of_lt ht)]
  have h1 := Int.emod_nonneg x (ne_of_gt ht)
  have h2 := Int.emod_lt_of_pos x ht
  have h3 := Int.ediv_add_emod x g.tabw
  have hsum : x + runewidth g 9 x = g.tabw * (x / g.tabw + 1) := by
    rw [hrw, mul_add, mul_one]
    omega
  refine ⟨hrw, by rw [hrw]; omega, by rw [hrw]; omega, ?_, by rw [hrw]; omega, ?_, ?_⟩
  · rw [hsum]
    exact Dvd.intro _ rfl
  · rintro m ⟨q, rfl⟩ hm
    rw [hsum]
    apply Int.mul_le_mul_of_nonneg_left _ (le_of_lt ht)
    by_contra hc
    have hq : q ≤ x / g.tabw := by omega
    have := Int.mul_le_mul_of_nonneg_left hq (le_of_lt ht)
    omega
  · intro y
    unfold runewidth
    rw [if_neg (by decide), if_pos rfl]

/-- C14 on the tab stop of 8 columns and the pen at column 3: the tab is 5
columns wide, not 8. -/
theorem runewidth_tab_witness :
    (0 : Int) < scenGui.tabw ∧ (0 : Int) ≤ 3 ∧ scenGui.tabw = 8 ∧
    runewidth scenGui 9 3 = 5 ∧ runewidth scenGui 9 3 ≠ 8 ∧
    scenGui.tabw ∣ 3 + runewidth scenGui 9 3 := by
  have T := runewidth_tab scenGui 3 (by decide) (by decide)
  have h5 : runewidth scenGui 9 3 = 5 := by decide
  exact ⟨by decide, by decide, rfl, h5, by rw [h5]; decide, T.2.2.2.1⟩

/-- With non-negative rune widths and a positive tab stop every rune has a
non-negative width at every pen. -/
theorem runewidth_nonneg (g : Gui) (hw : ∀ r, 0 ≤ g.textwidth r) (ht : 0 < g.tabw)
    (r : Rune) (x : Int) : 0 ≤ runewidth g r x := by
  unfold runewidth
  split_ifs
  · have h1 : Int.tmod x g.tabw < g.tabw := Int.tmod_lt_of_pos x ht
    omega
  · exact le_refl 0
  · exact hw r

/-- With non-negative rune widths the pen never goes left. -/
theorem pen_nonneg (g : Gui) (b : Buf) (hw : ∀ r, 0 ≤ g.textwidth r) (ht : 0 < g.tabw)
    (s : Nat) : ∀ k, 0 ≤ pen g b s k ∧ pen g b s k ≤ pen g b s (k + 1) := by
  intro k
  induction k with
  | zero =>
    refine ⟨le_refl 0, ?_⟩
    rw [pen_succ, pen_zero]
    have := runewidth_nonneg g hw ht (buf_get b (s + 0)) 0
    omega
  | succ k ih =>
    have h1 : 0 ≤ pen g b s (k + 1) := le_trans ih.1 ih.2
    refine ⟨h1, ?_⟩
    rw [pen_succ g b s (k + 1)]
    have := runewidth_nonneg g hw ht (buf_get b (s + (k + 1))) (pen g b s (k + 1))
    omega

/-- With non-negative rune widths a pen at 0 was at 0 all along. -/
theorem pen_zero_before (g : Gui) (b : Buf) (hw : ∀ r, 0 ≤ g.textwidth r) (ht : 0 < g.tabw)
    (s : Nat) : ∀ k, pen g b s k = 0 → ∀ j, j ≤ k → pen g b s j = 0 := by
  intro k
  induction k with
  | zero =>
    intro _ j hj
    have : j = 0 := by omega
    subst this
    rfl
  | succ k ih =>
    intro h j hj
    have h1 := pen_nonneg g b hw ht s k
    have h2 : pen g b s k = 0 := by omega
    rcases Nat.eq_or_lt_of_le hj with heq | hlt
    · rw [heq]; exact h
    · exact ih h2 j (by omega)

/-- On a display line from s to its first wrap boundary e the pen after the
rune at c is within the usable width, or the rune was put at pen 0, is wider
than the usable width by itself and, for a usable width that is not
negative, ends the line. -/
theorem line_pen_bound (g : Gui) (b : Buf) (grw : Int) (hw : ∀ r, 0 ≤ g.textwidth r)
    (ht : 0 < g.tabw) (s e : Nat) (hse : IsFirstBoundary g b grw s e) (c : Nat)
    (hsc : s ≤ c) (hce : c < e) :
    0 ≤ pen g b s (c - s) ∧ pen g b s (c - s) ≤ pen g b s (c + 1 - s) ∧
    (HMargin + pen g b s (c + 1 - s) ≤ grw ∨
      (pen g b s (c - s) = 0 ∧ (∀ j, j ≤ c - s → pen g b s j = 0) ∧
        grw - HMargin < runewidth g (buf_get b c) 0 ∧
        pen g b s (c + 1 - s) = runewidth g (buf_get b c) 0 ∧
        (0 ≤ grw - HMargin → e = c + 1))) := by
  have hk : c + 1 - s = (c - s) + 1 := by omega
  have hn := pen_nonneg g b hw ht s (c - s)
  rw [hk]
  refine ⟨hn.1, hn.2, ?_⟩
  have hfit : ¬ overflows g b grw c (pen g b s (c - s)) :=
    not_overflows_of_no_brk g b grw s c hsc (fun h => hse.2.2 c hce h)
  have hsucc : pen g b s (c - s + 1)
      = pen g b s (c - s) + runewidth g (buf_get b c) (pen g b s (c - s)) := by
    rw [pen_succ]
    have : s + (c - s) = c := by omega
    rw [this]
  by_cases hfits : HMargin + pen g b s (c - s + 1) ≤ grw
  · exact Or.inl hfits
  · right
    have hx0 : pen g b s (c - s) = 0 := by
      by_contra hne
      apply hfit
      refine ⟨?_, hne⟩
      rw [hsucc] at hfits
      omega
    have hval : pen g b s (c - s + 1) = runewidth g (buf_get b c) 0 := by
      rw [hsucc, hx0]; simp
    refine ⟨hx0, pen_zero_before g b hw ht s (c - s) hx0, ?_, hval, ?_⟩
    · rw [hval] at hfits
      omega
    · intro husable
      by_contra hne
      have hlt : c + 1 < e := by omega
      apply hse.2.2 (c + 1) hlt (by omega)
      right
      have hidx : c + 1 - s = c - s + 1 := by omega
      rw [hidx]
      have hn2 := pen_nonneg g b hw ht s (c - s + 1)
      have hrw := runewidth_nonneg g hw ht (buf_get b (c + 1)) (pen g b s (c - s + 1))
      refine ⟨?_, ?_⟩ <;> omega

/-- C19: with non-negative rune widths, on every display line of the layout
that lineinfo computes, from an offset s to its first wrap boundary e, and so
on every row of the table built by update, the pen is never negative and
never goes left, and the pen after placing the rune at c is within the
usable width gr.w - HMargin unless the rune was placed at pen 0: then every
earlier pen of the line is 0, the rune is by itself wider than the usable
width, and for a usable width that is not negative it is the last rune of
the line.  The loop of lineinfo itself places a rune at a pen that is not 0
only when the pen after it is within the usable width. -/
theorem pen_within_width (g : Gui) (w : W) (b : Buf) (hb : w.eb = some b)
    (hw : ∀ r, 0 ≤ g.textwidth r) (ht : 0 < g.tabw) :
    (∀ s e c : Nat, IsFirstBoundary g b w.gr.w s e → s ≤ c → c < e →
      0 ≤ pen g b s (c - s) ∧ pen g b s (c - s) ≤ pen g b s (c + 1 - s) ∧
      (HMargin + pen g b s (c + 1 - s) ≤ w.gr.w ∨
        (pen g b s (c - s) = 0 ∧ (∀ j, j ≤ c - s → pen g b s j = 0) ∧
          w.gr.w - HMargin < runewidth g (buf_get b c) 0 ∧
          pen g b s (c + 1 - s) = runewidth g (buf_get b c) 0 ∧
          (0 ≤ w.gr.w - HMargin → e = c + 1)))) ∧
    (∀ (w1 : W) (i c : Nat), update g w = some w1 → ((i : Int) + 1 ≤ w.nl) →
      w1.l i ≤ c → c < w1.l (i + 1) →
      IsFirstBoundary g b w.gr.w (w1.l i) (w1.l (i + 1)) ∧
      (HMargin + pen g b (w1.l i) (c + 1 - w1.l i) ≤ w.gr.w ∨
        (pen g b (w1.l i) (c - w1.l i) = 0 ∧
          w.gr.w - HMargin < runewidth g (buf_get b c) 0 ∧
          (0 ≤ w.gr.w - HMargin → w1.l (i + 1) = c + 1)))) ∧
    (∀ (lim fuel off : Nat) (x : Int) (li : LineInfo),
      (x ≠ 0 ∧ w.gr.w < HMargin + (x + runewidth g (buf_get b off) x) →
        lineinfo_loop g b w.gr.w lim (fuel + 1) off x li
          = if (pushoff li off (lim != nolimit)).1 = false
            then some (pushoff li off (lim != nolimit)).2
            else lineinfo_loop g b w.gr.w lim fuel off 0 (pushoff li off (lim != nolimit)).2) ∧
      (off < lim → buf_get b off ≠ 10 →
        (x = 0 ∨ HMargin + (x + runewidth g (buf_get b off) x) ≤ w.gr.w) →
        lineinfo_loop g b w.gr.w lim (fuel + 1) off x li
          = lineinfo_loop g b w.gr.w lim fuel (off + 1)
              (x + runewidth g (buf_get b off) x) li)) := by
  refine ⟨?_, ?_, ?_⟩
  · intro s e c hse hsc hce
    exact line_pen_bound g b w.gr.w hw ht s e hse c hsc hce
  · intro w1 i c hu hi hsc hce
    obtain ⟨T, hT, rfl⟩ := update_eq_some g w w1 hu
    obtain ⟨_, _, a3⟩ := update_loop_spec g w b hb _ 1 w.l T (le_refl 1) hT
    have hrow : IsFirstBoundary g b w.gr.w (T i) (T (i + 1)) := by
      have := (a3 (i + 1) (by omega) (by push_cast; omega)).1
      simpa using this
    refine ⟨hrow, ?_⟩
    obtain ⟨_, _, h3⟩ := line_pen_bound g b w.gr.w hw ht (T i) (T (i + 1)) hrow c hsc hce
    rcases h3 with h3 | ⟨q1, _, q3, _, q5⟩
    · exact Or.inl h3
    · exact Or.inr ⟨q1, q3, q5⟩
  · intro lim fuel off x li
    refine ⟨?_, ?_⟩
    · intro hc
      have h1 : HMargin + x + runewidth g (buf_get b off) x > w.gr.w ∧ x ≠ 0 :=
        ⟨by omega, hc.1⟩
      rw [lineinfo_loop]
      simp only
      rw [if_pos h1]
    · intro hlt hnl hfit
      have h1 : ¬ (HMargin + x + runewidth g (buf_get b off) x > w.gr.w ∧ x ≠ 0) := by
        intro hc
        rcases hfit with h | h
        · exact hc.2 h
        · omega
      rw [lineinfo_loop]
      simp only
      rw [if_neg h1, if_neg (by omega), if_neg hnl]

set_option maxRecDepth 1000000 in
/-- C19 on the scenario: the long line from 4 to 84 fills the usable width 80
exactly, and a window of width 16 takes one rune a line. -/
theorem pen_within_width_witness :
    (scenWin 0).eb = some (mkbuf scenText) ∧ (∀ r, 0 ≤ scenGui.textwidth r) ∧
    0 < scenGui.tabw ∧ IsFirstBoundary scenGui (mkbuf scenText) 96 4 84 ∧
    pen scenGui (mkbuf scenText) 4 80 = 80 ∧
    (HMargin + pen scenGui (mkbuf scenText) 4 (83 + 1 - 4) ≤ (scenWin 0).gr.w ∨
      (pen scenGui (mkbuf scenText) 4 (83 - 4) = 0 ∧
        (∀ j, j ≤ 83 - 4 → pen scenGui (mkbuf scenText) 4 j = 0) ∧
        (scenWin 0).gr.w - HMargin < runewidth scenGui (buf_get (mkbuf scenText) 83) 0 ∧
        pen scenGui (mkbuf scenText) 4 (83 + 1 - 4)
          = runewidth scenGui (buf_get (mkbuf scenText) 83) 0 ∧
        (0 ≤ (scenWin 0).gr.w - HMargin → 84 = 83 + 1))) := by
  have hw : ∀ r, 0 ≤ scenGui.textwidth r := fun _ => by show (0 : Int) ≤ 1; decide
  have hfb : IsFirstBoundary scenGui (mkbuf scenText) 96 4 84 := by decide
  exact ⟨rfl, hw, by decide, hfb, by decide,
    ((pen_within_width scenGui (scenWin 0) (mkbuf scenText) rfl hw (by decide)).1
      4 84 83 hfb (by decide) (by decide)).2.2⟩

/-- The body of win_move in one equation: the window is moved when both
dimensions are not 0, then its table is rebuilt by update and the window is
drawn. -/
theorem win_move_body_eq (k : Limits) (g : Gui) (s s1 : State) (pw : WPtr) (x w h : Int)
    (win0 : W) (hg : getw k s pw = some win0)
    (hm : win_move_body k g s pw x w h = some s1) :
    ∃ win1, update g (if w ≠ 0 ∧ h ≠ 0 then
        W.mk win0.l (Int.tdiv (h - VMargin) g.font_height) win0.cu win0.eb
          (GRect.mk x 0 w h) win0.hrig
      else win0) = some win1 ∧ s1 = setw s pw win1 ∧
      (w ≠ 0 ∧ h ≠ 0 → g.font_height ≠ 0 ∧
        Int.tdiv (h - VMargin) g.font_height < k.MaxHeight) ∧
      draw k g win1 = some () := by
  unfold win_move_body at hm
  rw [hg] at hm
  simp only at hm
  by_cases hwh : w ≠ 0 ∧ h ≠ 0
  · rw [if_pos hwh] at hm
    rw [if_pos hwh]
    by_cases hf : g.font_height = 0
    · rw [if_pos hf] at hm; simp at hm
    · rw [if_neg hf] at hm
      try simp only at hm
      by_cases hn : Int.tdiv (h - VMargin) g.font_height < k.MaxHeight
      · rw [if_pos hn] at hm
        simp only at hm
        cases hu : update g (W.mk win0.l (Int.tdiv (h - VMargin) g.font_height) win0.cu win0.eb
            (GRect.mk x 0 w h) win0.hrig) with
        | none => rw [hu] at hm; simp at hm
        | some win2 =>
          rw [hu] at hm
          simp only at hm
          cases hd : draw k g win2 with
          | none => rw [hd] at hm; simp at hm
          | some u =>
            rw [hd] at hm
            exact ⟨win2, rfl, (Option.some.inj hm).symm, fun _ => ⟨hf, hn⟩, hd⟩
      · rw [if_neg hn] at hm; simp at hm
  · rw [if_neg hwh] at hm
    rw [if_neg hwh]
    simp only at hm
    cases hu : update g win0 with
    | none => rw [hu] at hm; simp at hm
    | some win2 =>
      rw [hu] at hm
      simp only at hm
      cases hd : draw k g win2 with
      | none => rw [hd] at hm; simp at hm
      | some u =>
        rw [hd] at hm
        exact ⟨win2, rfl, (Option.some.inj hm).symm, fun hc => absurd hc hwh, hd⟩

/-- The body of win_move leaves the tag window alone unless it is called
on it. -/
theorem win_move_body_tag (k : Limits) (g : Gui) (s s1 : State) (pw : WPtr) (x w h : Int)
    (hm : win_move_body k g s pw x w h = some s1) :
    s1.tag_win.gr = (if pw = WPtr.tagwin ∧ w ≠ 0 ∧ h ≠ 0 then GRect.mk x 0 w h
      else s.tag_win.gr) ∧
    s1.tag_win.eb = s.tag_win.eb ∧ (pw ≠ WPtr.tagwin → s1.tag_win = s.tag_win) := by
  cases hg : getw k s pw with
  | none =>
    unfold win_move_body at hm
    rw [hg] at hm
    simp at hm
  | some win0 =>
    obtain ⟨win1, hu, rfl, _, _⟩ := win_move_body_eq k g s s1 pw x w h win0 hg hm
    obtain ⟨_, _, f3, f4, _⟩ := update_fields g _ win1 hu
    cases pw with
    | null => simp [getw] at hg
    | slot i => simp [setw]
    | tagwin =>
      simp only [getw] at hg
      have hw0 := Option.some.inj hg
      simp only [setw, true_and, ne_eq, not_true_eq_false, false_implies, and_true]
      rw [f3, f4]
      by_cases hwh : w ≠ 0 ∧ h ≠ 0
      · simp only [ne_eq] at hwh
        rw [if_pos hwh, if_pos hwh]
        exact ⟨rfl, by rw [hw0]⟩
      · simp only [ne_eq] at hwh
        rw [if_neg hwh, if_neg hwh]
        exact ⟨by rw [hw0], by rw [hw0]⟩

/-- The function win_move leaves the tag window alone unless it is called
on it; the redraw of the tag over its owner keeps its rectangle. -/
theorem win_move_tag (k : Limits) (g : Gui) (s s1 : State) (pw : WPtr) (x w h : Int)
    (hm : win_move k g s pw x w h = some s1) :
    s1.tag_win.gr = (if pw = WPtr.tagwin ∧ w ≠ 0 ∧ h ≠ 0 then GRect.mk x 0 w h
      else s.tag_win.gr) ∧ s1.tag_win.eb = s.tag_win.eb := by
  unfold win_move at hm
  cases hb : win_move_body k g s pw x w h with
  | none => rw [hb] at hm; simp at hm
  | some s0 =>
    rw [hb] at hm
    simp only at hm
    obtain ⟨f1, f2, _⟩ := win_move_body_tag k g s s0 pw x w h hb
    split_ifs at hm with h1 h2
    · obtain ⟨g1, g2, _⟩ := win_move_body_tag k g s0 s1 WPtr.tagwin 0 0 0 hm
      rw [g1, if_neg (by simp), f1, g2, f2]
      exact ⟨rfl, rfl⟩
    · have := Option.some.inj hm
      subst this
      exact ⟨f1, f2⟩

/-- The rectangle read through a pointer depends only on the rectangles of
the slots and of the tag window. -/
theorem getw_gr (k : Limits) (s s0 : State) (w : WPtr) (win0 win : W)
    (h1 : ∀ j, (s0.wins j).gr = (s.wins j).gr) (h2 : s0.tag_win.gr = s.tag_win.gr)
    (hg : getw k s w = some win0) (hg0 : getw k s0 w = some win) : win.gr = win0.gr := by
  cases w with
  | null => simp [getw] at hg
  | slot i =>
    simp only [getw] at hg hg0
    split_ifs at hg hg0 with hi
    rw [← Option.some.inj hg, ← Option.some.inj hg0]
    exact h1 i
  | tagwin =>
    simp only [getw] at hg hg0
    rw [← Option.some.inj hg, ← Option.some.inj hg0]
    exact h2

/-- What win_tag_toggle does to the tag: the owner is w afterwards, the tag
ends hidden exactly when it was visible for w, and the rectangle of the tag
window is set from the rectangle of w when the tag ends visible and both the
width of w and a third of its height are not 0. -/
theorem win_tag_toggle_state (k : Limits) (g : Gui) (s s1 : State) (w : WPtr)
    (ht : win_tag_toggle k g s w = some s1) :
    s1.tag_owner = w ∧
    s1.tag_visible = !(s.tag_visible && decide (s.tag_owner = w)) ∧
    ∀ win0, getw k s w = some win0 →
      s1.tag_win.gr = if s1.tag_visible = true ∧ win0.gr.w ≠ 0 ∧ Int.tdiv win0.gr.h 3 ≠ 0
        then GRect.mk win0.gr.x 0 win0.gr.w (Int.tdiv win0.gr.h 3) else s.tag_win.gr := by
  unfold win_tag_toggle at ht
  -- the showing step, from the state after the optional hiding step
  have key : ∀ s0 : State, (∀ j, (s0.wins j).gr = (s.wins j).gr) →
      s0.tag_win.gr = s.tag_win.gr →
      (match getw k s0 w with
        | none => none
        | some win =>
          win_move k g { s0 with tag_visible := true, tag_owner := w } WPtr.tagwin
            win.gr.x win.gr.w (Int.tdiv win.gr.h 3)) = some s1 →
      s1.tag_owner = w ∧ s1.tag_visible = true ∧
      ∀ win0, getw k s w = some win0 →
        s1.tag_win.gr = if s1.tag_visible = true ∧ win0.gr.w ≠ 0 ∧ Int.tdiv win0.gr.h 3 ≠ 0
          then GRect.mk win0.gr.x 0 win0.gr.w (Int.tdiv win0.gr.h 3) else s.tag_win.gr := by
    intro s0 e1 e2 h
    cases hg : getw k s0 w with
    | none => rw [hg] at h; simp at h
    | some win =>
      rw [hg] at h
      simp only at h
      obtain ⟨_, _, f3, f4, _⟩ := win_move_frame k g _ s1 _ _ _ _ h
      obtain ⟨t1, _⟩ := win_move_tag k g _ s1 _ _ _ _ h
      refine ⟨f3, f4, ?_⟩
      intro win0 hg0
      have hgr : win.gr = win0.gr := getw_gr k s s0 w win0 win e1 e2 hg0 hg
      rw [t1, hgr, f4]
      simp only [true_and]
      by_cases hc : win0.gr.w ≠ 0 ∧ Int.tdiv win0.gr.h 3 ≠ 0
      · rw [if_pos hc, if_pos hc]
      · rw [if_neg hc, if_neg hc]
        exact e2
  by_cases hv : s.tag_visible = true
  · rw [if_pos hv] at ht
    cases hm : win_move k g { s with tag_visible := false } s.tag_owner 0 0 0 with
    | none => rw [hm] at ht; simp at ht
    | some s0 =>
      rw [hm] at ht
      simp only at ht
      obtain ⟨_, _, f3, f4, f5⟩ := win_move_frame k g _ s0 _ _ _ _ hm
      obtain ⟨t1, _⟩ := win_move_tag k g _ s0 _ _ _ _ hm
      have e1 : ∀ j, (s0.wins j).gr = (s.wins j).gr := by
        intro j
        rw [(f5 j).2.2, if_neg (by simp)]
      have e2 : s0.tag_win.gr = s.tag_win.gr := by
        rw [t1, if_neg (by simp)]
      have f3b : s0.tag_owner = s.tag_owner := f3
      have f4b : s0.tag_visible = false := f4
      by_cases hd : decide (w = s0.tag_owner) = true
      · rw [hd] at ht
        simp only at ht
        have := Option.some.inj ht
        subst this
        have hw : w = s.tag_owner := by
          have := of_decide_eq_true hd
          rw [f3b] at this
          exact this
        refine ⟨by rw [f3b, hw], ?_, ?_⟩
        · rw [f4b, hv, hw]; simp
        · intro win0 _
          rw [f4b, e2]
          simp
      · have hd2 : decide (w = s0.tag_owner) = false := by simpa using hd
        rw [hd2] at ht
        obtain ⟨k1, k2, k3⟩ := key s0 e1 e2 ht
        have hw : s.tag_owner ≠ w := by
          intro hc
          apply hd
          rw [f3b, hc]
          simp
        refine ⟨k1, ?_, k3⟩
        rw [k2, hv]
        simp [hw]
  · rw [if_neg hv] at ht
    obtain ⟨k1, k2, k3⟩ := key s (fun _ => rfl) rfl ht
    have hv2 : s.tag_visible = false := by simpa using hv
    refine ⟨k1, ?_, k3⟩
    rw [k2, hv2]
    simp

/-- The second loop of win_resize_frame keeps the buffers and weights of the
slots and the state of the tag: the owner of a visible tag is re-toggled
from hidden, which shows the tag again for the same owner. -/
theorem resize_loop_frame (k : Limits) (g : Gui) (rig : Int) :
    ∀ (left i : Nat) (x : Int) (s s' : State),
      resize_loop k g rig left i x s = some s' →
      s'.tag_visible = s.tag_visible ∧ s'.tag_owner = s.tag_owner ∧
      (∀ j, (s'.wins j).eb = (s.wins j).eb ∧ (s'.wins j).hrig = (s.wins j).hrig) ∧
      ((∃ j, i ≤ j ∧ j < i + left ∧ (s.wins j).eb.isSome = true) → rig ≠ 0) := by
  intro left
  induction left with
  | zero =>
    intro i x s s' h
    simp only [resize_loop] at h
    have := Option.some.inj h
    subst this
    refine ⟨rfl, rfl, fun _ => ⟨rfl, rfl⟩, ?_⟩
    rintro ⟨j, h1, h2, _⟩
    omega
  | succ n ih =>
    intro i x s s' h
    rw [resize_loop] at h
    by_cases hocc : (s.wins i).eb.isSome = true
    · rw [if_pos hocc] at h
      by_cases hr : rig = 0
      · rw [if_pos hr] at h; simp at h
      · rw [if_neg hr] at h
        cases hc1 : ck (s.fwidth * (s.wins i).hrig) with
        | none => rw [hc1] at h; simp at h
        | some prod =>
          rw [hc1] at h
          simp only at h
          cases hc2 : ck (Int.tdiv prod rig) with
          | none => rw [hc2] at h; simp at h
          | some ww =>
            rw [hc2] at h
            simp only at h
            cases hm : win_move k g s (WPtr.slot i) x ww s.fheight with
            | none => rw [hm] at h; simp at h
            | some s1 =>
              rw [hm] at h
              simp only at h
              obtain ⟨_, _, f3, f4, f5⟩ := win_move_frame k g s s1 _ _ _ _ hm
              cases ht : (if s1.tag_visible = true ∧ s1.tag_owner = WPtr.slot i then
                  win_tag_toggle k g { s1 with tag_visible := false } (WPtr.slot i)
                else some s1) with
              | none => rw [ht] at h; simp at h
              | some s2 =>
                rw [ht] at h
                simp only at h
                have F2 : s2.tag_visible = s1.tag_visible ∧ s2.tag_owner = s1.tag_owner ∧
                    ∀ j, (s2.wins j).eb = (s1.wins j).eb ∧
                      (s2.wins j).hrig = (s1.wins j).hrig := by
                  split_ifs at ht with hc
                  · obtain ⟨t1, t2, _⟩ :=
                      win_tag_toggle_state k g { s1 with tag_visible := false } s2 _ ht
                    obtain ⟨_, _, t5⟩ :=
                      win_tag_toggle_frame k g { s1 with tag_visible := false } s2 _ ht
                    refine ⟨?_, ?_, fun j => ⟨(t5 j).1, (t5 j).2.1⟩⟩
                    · rw [t2, hc.1]; rfl
                    · rw [t1, hc.2]
                  · have := Option.some.inj ht
                    subst this
                    exact ⟨rfl, rfl, fun _ => ⟨rfl, rfl⟩⟩
                obtain ⟨g3, g4, g5⟩ := F2
                cases hc3 : ck (x + ww) with
                | none => rw [hc3] at h; simp at h
                | some x1 =>
                  rw [hc3] at h
                  simp only at h
                  obtain ⟨a1, a2, a3, _⟩ := ih (i + 1) x1 s2 s' h
                  refine ⟨by rw [a1, g3, f4], by rw [a2, g4, f3], ?_, fun _ => hr⟩
                  intro j
                  exact ⟨by rw [(a3 j).1, (g5 j).1, (f5 j).1],
                    by rw [(a3 j).2, (g5 j).2, (f5 j).2.1]⟩
    · rw [if_neg hocc] at h
      obtain ⟨a1, a2, a3, a4⟩ := ih (i + 1) x s s' h
      refine ⟨a1, a2, a3, ?_⟩
      rintro ⟨j, h1, h2, h3⟩
      apply a4
      refine ⟨j, ?_, by omega, h3⟩
      rcases Nat.eq_or_lt_of_le h1 with heq | hlt
      · subst heq
        exact absurd h3 hocc
      · omega

/-- The function win_resize_frame keeps the buffers and weights of the slots
and the state of the tag. -/
theorem win_resize_frame_frame (k : Limits) (g : Gui) (s s' : State) (w h : Int)
    (hr : win_resize_frame k g s w h = some s') :
    s'.tag_visible = s.tag_visible ∧ s'.tag_owner = s.tag_owner ∧
    (∀ j, (s'.wins j).eb = (s.wins j).eb ∧ (s'.wins j).hrig = (s.wins j).hrig) ∧
    ∃ rig, rig_loop s k.MaxWins 0 0 = some rig ∧ rig = rig_sum s k.MaxWins ∧
      ((∃ j, j < k.MaxWins ∧ (s.wins j).eb.isSome = true) → rig ≠ 0) := by
  unfold win_resize_frame at hr
  obtain ⟨s0, hs0⟩ : ∃ s0 : State,
      s0 = (if w ≠ 0 ∧ h ≠ 0 then { s with fwidth := w, fheight := h } else s) := ⟨_, rfl⟩
  rw [← hs0] at hr
  simp only at hr
  have e1 : s0.wins = s.wins := by rw [hs0]; split_ifs <;> rfl
  have e2 : s0.tag_visible = s.tag_visible := by rw [hs0]; split_ifs <;> rfl
  have e3 : s0.tag_owner = s.tag_owner := by rw [hs0]; split_ifs <;> rfl
  have hloop : ∀ (left i : Nat) (acc : Int), rig_loop s0 left i acc = rig_loop s left i acc := by
    intro left
    induction left with
    | zero => intro i acc; rfl
    | succ n ih =>
      intro i acc
      rw [rig_loop, rig_loop, e1]
      cases ck (acc + (s.wins i).hrig) with
      | none => rfl
      | some r => exact ih (i + 1) r
  cases hrl : rig_loop s0 k.MaxWins 0 0 with
  | none => rw [hrl] at hr; simp at hr
  | some rig =>
    rw [hrl] at hr
    simp only at hr
    obtain ⟨a1, a2, a3, a4⟩ := resize_loop_frame k g rig k.MaxWins 0 0 s0 s' hr
    rw [hloop] at hrl
    have hsum := rig_loop_eq s _ _ _ _ hrl
    simp only [Nat.zero_add, rig_sum, sub_zero, zero_add] at hsum
    refine ⟨by rw [a1, e2], by rw [a2, e3], ?_, rig, hrl, hsum, ?_⟩
    · intro j
      rw [(a3 j).1, (a3 j).2, e1]
      exact ⟨rfl, rfl⟩
    · rintro ⟨j, hj, ho⟩
      apply a4
      refine ⟨j, Nat.zero_le _, by omega, ?_⟩
      rw [e1]
      exact ho

/-- What win_new does to the tag and to the slots: the tag is unchanged and
a slot changes only from free to occupied with weight 500. -/
theorem win_new_frame (k : Limits) (s : State) (eb : Buf) :
    (win_new k s eb).2.tag_visible = s.tag_visible ∧
    (win_new k s eb).2.tag_owner = s.tag_owner ∧
    ∀ j, (win_new k s eb).2.wins j = s.wins j ∨
      ((s.wins j).eb = none ∧ ((win_new k s eb).2.wins j).eb = some eb ∧
        ((win_new k s eb).2.wins j).hrig = 500) := by
  unfold win_new
  cases hscan : win_new_scan s k.MaxWins 0 with
  | none => exact ⟨rfl, rfl, fun _ => Or.inl rfl⟩
  | some i =>
    obtain ⟨_, _, hfree, _⟩ := win_new_scan_some s _ _ _ hscan
    refine ⟨rfl, rfl, ?_⟩
    intro j
    by_cases hji : j = i
    · subst hji
      right
      simp [hfree]
    · left
      simp [Function.update, hji]

/-- In a reachable registry state an occupied slot has weight 500 and a free
slot has weight 0. -/
theorem reg_reach_weights (k : Limits) (g : Gui) (s : State) (hr : RegReach k g s) :
    ∀ j, ((s.wins j).eb.isSome = true → (s.wins j).hrig = 500) ∧
      ((s.wins j).eb.isSome = false → (s.wins j).hrig = 0) := by
  induction hr with
  | init s h =>
    intro j
    rw [h j]
    exact ⟨fun hc => by simp [W.zero] at hc, fun _ => rfl⟩
  | new s eb _ ih =>
    intro j
    obtain ⟨_, _, h3⟩ := win_new_frame k s eb
    rcases h3 j with h | ⟨_, h2, h3⟩
    · rw [h]; exact ih j
    · refine ⟨fun _ => h3, ?_⟩
      intro hc
      rw [h2] at hc
      simp at hc
  | delete s s1 p _ hd ih =>
    intro j
    cases p with
    | null => simp [win_delete] at hd
    | tagwin => simp [win_delete] at hd
    | slot i =>
      simp only [win_delete] at hd
      split_ifs at hd with hi
      have := Option.some.inj hd
      subst this
      by_cases hji : j = i
      · subst hji
        simp [W.zero]
      · simp only [Function.update, hji, dite_false]
        exact ih j
  | resize s s1 w h _ hres ih =>
    intro j
    obtain ⟨_, _, h3, _⟩ := win_resize_frame_frame k g s s1 w h hres
    rw [(h3 j).1, (h3 j).2]
    exact ih j

/-- The sum of all weights is the sum over the occupied slots when the free
slots have weight 0. -/
theorem rig_sum_eq_occ (s : State)
    (hfree : ∀ j, (s.wins j).eb.isSome = false → (s.wins j).hrig = 0) :
    ∀ n, rig_sum s n = occ_rig s n := by
  intro n
  induction n with
  | zero => rfl
  | succ n ih =>
    simp only [rig_sum, occ_rig, ih]
    by_cases ho : (s.wins n).eb.isSome = true
    · rw [if_pos ho]
    · rw [if_neg ho, hfree n (by simpa using ho)]

/-- The sum of weights that are 0 or 500 is at most 500 a slot. -/
theorem rig_sum_le (s : State)
    (h : ∀ j, (s.wins j).hrig = 500 ∨ (s.wins j).hrig = 0) :
    ∀ n : Nat, 0 ≤ rig_sum s n ∧ rig_sum s n ≤ 500 * (n : Int) := by
  intro n
  induction n with
  | zero => simp [rig_sum]
  | succ n ih =>
    simp only [rig_sum]
    push_cast
    rcases h n with h1 | h1 <;> rw [h1] <;> omega

/-- C17: in every registry state reached from all-zero slots through win_new,
win_delete and win_resize_frame, every occupied slot has a weight above 0
(it is 500) and every free slot has weight 0.  So the sum rig that the first
loop of win_resize_frame computes over all MaxWins slots is the sum of the
weights of the occupied slots, and it is above 0 as soon as one slot below
MaxWins is occupied, which is when the second loop divides by it; that loop
sums without overflow when 500 * MaxWins fits an int. -/
theorem registry_weights (k : Limits) (g : Gui) (s : State) (hr : RegReach k g s) :
    (∀ j, ((s.wins j).eb.isSome = true → 0 < (s.wins j).hrig) ∧
      ((s.wins j).eb.isSome = false → (s.wins j).hrig = 0)) ∧
    rig_sum s k.MaxWins = occ_rig s k.MaxWins ∧
    (∀ rig, rig_loop s k.MaxWins 0 0 = some rig →
      rig = occ_rig s k.MaxWins ∧
      ((∃ j, j < k.MaxWins ∧ (s.wins j).eb.isSome = true) → 0 < rig)) ∧
    (∀ w h s1, win_resize_frame k g s w h = some s1 →
      ∃ rig, rig_loop s k.MaxWins 0 0 = some rig ∧ rig = occ_rig s k.MaxWins ∧
        ((∃ j, j < k.MaxWins ∧ (s.wins j).eb.isSome = true) → 0 < rig) ∧
        ∀ j, (s1.wins j).eb = (s.wins j).eb ∧ (s1.wins j).hrig = (s.wins j).hrig) ∧
    (500 * (k.MaxWins : Int) ≤ 2147483647 → ∃ rig, rig_loop s k.MaxWins 0 0 = some rig) := by
  have hw := reg_reach_weights k g s hr
  have hfree : ∀ j, (s.wins j).eb.isSome = false → (s.wins j).hrig = 0 := fun j => (hw j).2
  have h01 : ∀ j, (s.wins j).hrig = 500 ∨ (s.wins j).hrig = 0 := by
    intro j
    by_cases ho : (s.wins j).eb.isSome = true
    · exact Or.inl ((hw j).1 ho)
    · exact Or.inr (hfree j (by simpa using ho))
  have hnn : ∀ j, j < k.MaxWins → 0 ≤ (s.wins j).hrig := by
    intro j _
    rcases h01 j with h | h <;> omega
  have hocc := rig_sum_eq_occ s hfree k.MaxWins
  have hpos : (∃ j, j < k.MaxWins ∧ (s.wins j).eb.isSome = true) →
      0 < rig_sum s k.MaxWins := by
    rintro ⟨j, hj, ho⟩
    have h1 := (rig_sum_ge s k.MaxWins hnn k.MaxWins (le_refl _)).2 j hj
    have h2 := (hw j).1 ho
    omega
  have hloop : ∀ rig, rig_loop s k.MaxWins 0 0 = some rig →
      rig = occ_rig s k.MaxWins ∧
      ((∃ j, j < k.MaxWins ∧ (s.wins j).eb.isSome = true) → 0 < rig) := by
    intro rig hrig
    have hsum := rig_loop_eq s _ _ _ _ hrig
    simp only [Nat.zero_add, rig_sum, sub_zero, zero_add] at hsum
    refine ⟨by rw [hsum, hocc], ?_⟩
    intro hex
    rw [hsum]
    exact hpos hex
  refine ⟨?_, hocc, hloop, ?_, ?_⟩
  · intro j
    refine ⟨?_, (hw j).2⟩
    intro ho
    rw [(hw j).1 ho]
    decide
  · intro w h s1 hres
    obtain ⟨_, _, h3, rig, hrig, _, _⟩ := win_resize_frame_frame k g s s1 w h hres
    obtain ⟨q1, q2⟩ := hloop rig hrig
    exact ⟨rig, hrig, q1, q2, h3⟩
  · intro hmax
    have hb := (rig_sum_le s h01 k.MaxWins).2
    exact rig_loop_returns s k.MaxWins hnn (by omega) k.MaxWins 0 (by omega)

set_option maxRecDepth 1000000 in
/-- C17 on the registry of the examples after two calls of win_new: the sum
of the weights is 1000, over slots of weights 500, 500 and 0. -/
theorem registry_weights_witness :
    RegReach demoLimits scenGui twoWinState ∧
    rig_loop twoWinState demoLimits.MaxWins 0 0 = some 1000 ∧
    occ_rig twoWinState demoLimits.MaxWins = 1000 ∧
    rig_sum twoWinState demoLimits.MaxWins = occ_rig twoWinState demoLimits.MaxWins ∧
    (twoWinState.wins 2).hrig = 0 := by
  have hreach : RegReach demoLimits scenGui twoWinState :=
    RegReach.new oneWinState (mkbuf scenText)
      (RegReach.new initState (mkbuf scenText) (RegReach.init initState (fun _ => rfl)))
  have T := registry_weights demoLimits scenGui twoWinState hreach
  exact ⟨hreach, by decide, by decide, T.2.1, (T.1 2).2 (by decide)⟩

/-- In every state reached without deleting the owner of a visible tag, the
owner of a visible tag is an occupied slot. -/
theorem tag_reach_inv (k : Limits) (g : Gui) (s : State) (hr : TagReach k g s) :
    TagInv k s := by
  induction hr with
  | init s _ hv =>
    intro hc
    rw [hv] at hc
    exact absurd hc (by simp)
  | new s eb _ ih =>
    obtain ⟨h1, h2, h3⟩ := win_new_frame k s eb
    intro hv
    rw [h1] at hv
    obtain ⟨i, a1, a2, a3⟩ := ih hv
    refine ⟨i, by rw [h2]; exact a1, a2, ?_⟩
    rcases h3 i with h | ⟨_, h, _⟩
    · rw [h]; exact a3
    · rw [h]; rfl
  | delete s s1 p _ hguard hd ih =>
    cases p with
    | null => simp [win_delete] at hd
    | tagwin => simp [win_delete] at hd
    | slot i0 =>
      simp only [win_delete] at hd
      split_ifs at hd with hi
      have := Option.some.inj hd
      subst this
      intro hv
      obtain ⟨i, a1, a2, a3⟩ := ih hv
      have hne : i ≠ i0 := by
        intro hc
        apply hguard
        refine ⟨hv, ?_⟩
        rw [a1, hc]
      refine ⟨i, a1, a2, ?_⟩
      simp only [Function.update, hne, dite_false]
      exact a3
  | move s s1 pw x w h _ hm ih =>
    obtain ⟨_, _, f3, f4, f5⟩ := win_move_frame k g s s1 pw x w h hm
    intro hv
    rw [f4] at hv
    obtain ⟨i, a1, a2, a3⟩ := ih hv
    exact ⟨i, by rw [f3]; exact a1, a2, by rw [(f5 i).1]; exact a3⟩
  | resize s s1 w h _ hres ih =>
    obtain ⟨f1, f2, f3, _⟩ := win_resize_frame_frame k g s s1 w h hres
    intro hv
    rw [f1] at hv
    obtain ⟨i, a1, a2, a3⟩ := ih hv
    exact ⟨i, by rw [f2]; exact a1, a2, by rw [(f3 i).1]; exact a3⟩
  | toggle s s1 i _ hi ho ht _ =>
    obtain ⟨t1, _, _⟩ := win_tag_toggle_state k g s s1 _ ht
    obtain ⟨_, _, t5⟩ := win_tag_toggle_frame k g s s1 _ ht
    intro _
    exact ⟨i, t1, hi, by rw [(t5 i).1]; exact ho⟩

/-- C20: in every state reached from all-zero slots and a hidden tag through
win_new, win_move, win_resize_frame, win_tag_toggle on occupied slots, and
win_delete on windows other than the owner of a visible tag, a visible tag
has an owner that is a slot below MaxWins holding a buffer; the pointer
tag.owner, which win_tag_toggle hands to win_move(tag.owner, 0, 0, 0), reads
that window. -/
theorem tag_owner_live (k : Limits) (g : Gui) (s : State) (hr : TagReach k g s) :
    TagInv k s ∧
    (s.tag_visible = true →
      ∃ i win b, s.tag_owner = WPtr.slot i ∧ i < k.MaxWins ∧
        getw k s s.tag_owner = some win ∧ win = s.wins i ∧ win.eb = some b) := by
  have hinv := tag_reach_inv k g s hr
  refine ⟨hinv, ?_⟩
  intro hv
  obtain ⟨i, a1, a2, a3⟩ := hinv hv
  obtain ⟨b, hb⟩ := Option.isSome_iff_exists.mp a3
  refine ⟨i, s.wins i, b, a1, a2, ?_, rfl, hb⟩
  rw [a1]
  simp [getw, a2]

set_option maxRecDepth 1000000 in
/-- C20 on the single window of the examples after win_tag_toggle: the tag is
visible and its owner, slot 0, holds the buffer. -/
theorem tag_owner_live_witness :
    ∃ s1, win_tag_toggle demoLimits scenGui oneWinState (WPtr.slot 0) = some s1 ∧
      TagReach demoLimits scenGui s1 ∧ s1.tag_visible = true ∧
      ∃ i win b, s1.tag_owner = WPtr.slot i ∧ i < demoLimits.MaxWins ∧
        getw demoLimits s1 s1.tag_owner = some win ∧ win = s1.wins i ∧ win.eb = some b := by
  have hs : (win_tag_toggle demoLimits scenGui oneWinState (WPtr.slot 0)).isSome = true := by
    decide
  obtain ⟨s1, h1⟩ := Option.isSome_iff_exists.mp hs
  have hreach : TagReach demoLimits scenGui s1 :=
    TagReach.toggle oneWinState s1 0
      (TagReach.new initState (mkbuf scenText)
        (TagReach.init initState (fun _ => rfl) rfl))
      (by decide) (by decide) h1
  have hv : s1.tag_visible = true := by
    have := (win_tag_toggle_state demoLimits scenGui oneWinState s1 _ h1).2.1
    rw [this]
    decide
  exact ⟨s1, h1, hreach, hv, (tag_owner_live demoLimits scenGui s1 hreach).2 hv⟩

set_option maxRecDepth 1000000 in
/-- C20 fails as stated: win_new, then win_tag_toggle on the occupied slot 0,
then win_delete on slot 0 leave the tag visible with the owner slot 0, which
is free again: win_delete clears the slot and does not touch the tag. -/
theorem tag_owner_live_counterexample :
    (oneWinState.wins 0).eb.isSome = true ∧
    ((win_tag_toggle demoLimits scenGui (win_new demoLimits initState (mkbuf scenText)).2
        (WPtr.slot 0)).bind (fun s => win_delete demoLimits s (WPtr.slot 0))).map
        (fun t => (t.tag_visible, t.tag_owner, (t.wins 0).eb.isSome))
      = some (true, WPtr.slot 0, false) ∧
    ∃ t, ((win_tag_toggle demoLimits scenGui (win_new demoLimits initState (mkbuf scenText)).2
        (WPtr.slot 0)).bind (fun s => win_delete demoLimits s (WPtr.slot 0))) = some t ∧
      ¬ TagInv demoLimits t := by
  have hmap : ((win_tag_toggle demoLimits scenGui
        (win_new demoLimits initState (mkbuf scenText)).2
        (WPtr.slot 0)).bind (fun s => win_delete demoLimits s (WPtr.slot 0))).map
        (fun t => (t.tag_visible, t.tag_owner, (t.wins 0).eb.isSome))
      = some (true, WPtr.slot 0, false) := by decide
  refine ⟨by decide, hmap, ?_⟩
  obtain ⟨t, ht, hval⟩ := Option.map_eq_some'.mp hmap
  refine ⟨t, ht, ?_⟩
  intro hinv
  have hv : t.tag_visible = true := congrArg (fun p => p.1) hval
  have ho : t.tag_owner = WPtr.slot 0 := congrArg (fun p => p.2.1) hval
  have he : (t.wins 0).eb.isSome = false := congrArg (fun p => p.2.2) hval
  obtain ⟨i, a1, _, a3⟩ := hinv hv
  rw [ho] at a1
  have hi : i = 0 := (WPtr.slot.inj a1).symm
  rw [hi, he] at a3
  exact absurd a3 (by simp)

end Ed
